import Mathlib

/-!
# Verification of the github-issue-linker scanning core

A shallow embedding, in Lean 4, of the scanning pipeline of the
github-issue-linker browser extension: the pattern engine
(`GenericTracker`), the text scanner (`getTextNodes` /
`shouldExcludeElement`), the link processor (detection, deduplication,
batching, adaptive options) and the content-script navigation handler.

JavaScript strings are embedded as `List Char` (`JSString`).  Host
primitives that the source calls (the `RegExp` class for patterns of the
shape `\b<prefix>-\d+\b`, the WHATWG `URL` class, `encodeURIComponent`)
are modelled explicitly below, restricted to the fragment of their
behaviour the source exercises; each model carries a comment describing
its scope.  Fallible host calls are embedded in `Except`/`Option`.
-/

/-- JavaScript strings are embedded as lists of characters. -/
abbrev JSString := List Char

/- ### Word characters and the semantics of `\b<prefix>-\d+\b`

`GenericTracker.generatePattern(keyPrefix)` in the source builds
`new RegExp(`\\b${keyPrefix}-\\d+\\b`, 'g')`.  For a prefix made of
characters `[A-Za-z0-9_-]` (the key-prefix invariant) the prefix is a
regex literal, so the pattern is exactly `\b P -\d+ \b`.  We give that
pattern family an executable semantics: `regexMatchAt P s i` decides
whether the pattern matches the text `s` at position `i`, and
`regexTest P s` whether it matches anywhere. -/

/-- JavaScript `\w` / word characters used by the `\b` assertion
(non-unicode mode): `[A-Za-z0-9_]`. -/
def isWordChar (c : Char) : Bool :=
  c.isAlpha || c.isDigit || c = '_'

/-- Whether position `i` of `s` holds a word character (out-of-range
positions hold none). -/
def isWordAt (s : JSString) (i : Nat) : Bool :=
  match s[i]? with
  | some c => isWordChar c
  | none => false

/-- The `\b` assertion of JavaScript regexes: a word boundary holds
between positions `i-1` and `i` when exactly one side is a word
character (the outside of the string counts as non-word). -/
def wordBoundary (s : JSString) : Nat → Bool
  | 0 => isWordAt s 0
  | j + 1 => isWordAt s j != isWordAt s (j + 1)

/-- Length of the digit run `\d+` would consume at the front of `l`. -/
def digitRun (l : JSString) : Nat :=
  (l.takeWhile Char.isDigit).length

/-- Semantics of the pattern `\b<P>-\d+\b` (with `P` inserted literally)
at position `i` of `s`: a word boundary, then the literal `P ++ "-"`,
then at least one digit, then a word boundary.  Because digits are word
characters, only the maximal digit run can be followed by a word
boundary, so maximal-munch is equivalent to the regex's backtracking
search. -/
def regexMatchAt (P s : JSString) (i : Nat) : Bool :=
  wordBoundary s i &&
  (P ++ ['-']).isPrefixOf (s.drop i) &&
  (digitRun (s.drop (i + P.length + 1)) != 0) &&
  wordBoundary s (i + P.length + 1 + digitRun (s.drop (i + P.length + 1)))

/-- `pattern.test(s)`: the pattern `\b<P>-\d+\b` matches somewhere in `s`. -/
def regexTest (P s : JSString) : Bool :=
  (List.range (s.length + 1)).any (regexMatchAt P s)

/-- Position of the first match of `\b<P>-\d+\b` in `s` at or after
`start` — the search performed by `pattern.exec` with `lastIndex =
start`. -/
def firstMatchFrom (P s : JSString) (start : Nat) : Option Nat :=
  ((List.range (s.length + 1)).filter (fun i => start ≤ i && regexMatchAt P s i)).head?

/-- Length of the match of `\b<P>-\d+\b` starting at position `i` of `s`. -/
def matchLength (P s : JSString) (i : Nat) : Nat :=
  P.length + 1 + digitRun (s.drop (i + P.length + 1))

/-- The `while ((match = pattern.exec(text)) !== null)` loop of the
source, which advances `lastIndex` past each match and collects every
matched substring in order.  Matches of this pattern are nonempty, so
the source's zero-length-match guard never fires; the fuel argument
(`s.length + 1` at the top level) bounds the number of iterations, which
is sufficient because `lastIndex` strictly increases and a match needs
`lastIndex ≤ s.length`. -/
def execAllAux (P s : JSString) : Nat → Nat → List JSString
  | 0, _ => []
  | fuel + 1, start =>
    match firstMatchFrom P s start with
    | none => []
    | some i => (s.drop i).take (matchLength P s i) ::
        execAllAux P s fuel (i + matchLength P s i)

/-- All matched substrings of `\b<P>-\d+\b` in `s`, in order. -/
def execAll (P s : JSString) : List JSString :=
  execAllAux P s (s.length + 1) 0

/-- `isValidKeyPrefix` from `lib/utils`: the key-prefix invariant
`^[A-Za-z][A-Za-z0-9_-]*$`. -/
def isValidKeyPrefix (P : JSString) : Bool :=
  match P with
  | [] => false
  | c :: rest => c.isAlpha && rest.all (fun d => d.isAlpha || d.isDigit || d = '_' || d = '-')

/- ### The pattern engine (`lib/issue-tracker`) -/

/-- The result of `new RegExp(source, 'g')`: the pattern source text and
the global flag.  The semantics of the patterns `GenericTracker`
produces is `regexTest` / `execAll` above. -/
structure JSRegExp where
  source : JSString
  global : Bool
deriving DecidableEq

namespace GenericTracker

/-- `GenericTracker.generatePattern`: builds
`new RegExp(`\\b${keyPrefix}-\\d+\\b`, 'g')`. -/
def generatePattern (keyPrefix : JSString) : JSRegExp :=
  { source := "\\b".data ++ keyPrefix ++ "-\\d+\\b".data, global := true }

end GenericTracker

/- ### The adaptive scheduler (`LinkProcessor` options) -/

/-- The `performanceMode` values of `LinkProcessingOptions`. -/
inductive PerformanceMode where
  | comprehensive
  | auto
  | fast
deriving DecidableEq

/-- `LinkProcessingOptions` from `@/types` (times in milliseconds). -/
structure LinkProcessingOptions where
  performanceMode : PerformanceMode
  maxProcessingTime : Nat
  batchSize : Nat
  useIntersectionObserver : Bool
deriving DecidableEq

/-- The default options initialised in the `LinkProcessor` field
declaration. -/
def defaultOptions : LinkProcessingOptions :=
  { performanceMode := .auto
    maxProcessingTime := 500
    batchSize := 50
    useIntersectionObserver := false }

/-- `LinkProcessor.adaptToDocumentSize`, with the live
`document.querySelectorAll('*').length` passed explicitly.  Every field
of the current options is overwritten in each branch. -/
def adaptToDocumentSize (elementCount : Nat) (opts : LinkProcessingOptions) :
    LinkProcessingOptions :=
  if elementCount < 1000 then
    { opts with
      performanceMode := .comprehensive
      maxProcessingTime := 100
      batchSize := 100
      useIntersectionObserver := false }
  else if elementCount < 5000 then
    { opts with
      performanceMode := .auto
      maxProcessingTime := 500
      batchSize := 50
      useIntersectionObserver := false }
  else
    { opts with
      performanceMode := .fast
      maxProcessingTime := 200
      batchSize := 25
      useIntersectionObserver := true }

/-- `Partial<LinkProcessingOptions>`: the optional constructor argument,
every field optional. -/
structure PartialLinkProcessingOptions where
  performanceMode : Option PerformanceMode := none
  maxProcessingTime : Option Nat := none
  batchSize : Option Nat := none
  useIntersectionObserver : Option Bool := none

/-- The object-spread merge `{ ...this.options, ...options }` of the
`LinkProcessor` constructor. -/
def mergeOptions (base : LinkProcessingOptions) (o : PartialLinkProcessingOptions) :
    LinkProcessingOptions :=
  { performanceMode := o.performanceMode.getD base.performanceMode
    maxProcessingTime := o.maxProcessingTime.getD base.maxProcessingTime
    batchSize := o.batchSize.getD base.batchSize
    useIntersectionObserver := o.useIntersectionObserver.getD base.useIntersectionObserver }

/-- The options computed by the `LinkProcessor` constructor: start from
the defaults, merge the optional overrides, then — only when the
resulting mode is `'auto'` — adapt once to the live document element
count. -/
def constructorOptions (elementCount : Nat)
    (overrides : Option PartialLinkProcessingOptions) : LinkProcessingOptions :=
  let opts := match overrides with
    | none => defaultOptions
    | some o => mergeOptions defaultOptions o
  if opts.performanceMode = .auto then adaptToDocumentSize elementCount opts else opts

/- ### The batch loop of `LinkProcessor.processTextNodes`

```
for (let i = 0; i < textNodes.length; i += this.options.batchSize) {
  const batch = textNodes.slice(i, i + this.options.batchSize);
  await this.processBatch(batch);
  if (i + this.options.batchSize < textNodes.length) {
    await new Promise(resolve => setTimeout(resolve, 1));
  }
}
```

With remaining nodes `r = textNodes.drop i`, the loop guard `i < n` is
`r ≠ []` and the yield condition `i + b < n` is `b < r.length`. -/

/-- The consecutive batches (`textNodes.slice(i, i + batchSize)`) the
loop processes, in order.  Faithful to the source for `batchSize ≥ 1`
(the configured values are 25, 50 and 100). -/
def batchSplit (b : Nat) : List α → List (List α)
  | [] => []
  | x :: xs => (x :: xs.take (b - 1)) :: batchSplit b (xs.drop (b - 1))
termination_by l => l.length
decreasing_by
  simp only [List.length_cons, List.length_drop]
  omega

/-- The number of times the loop yields control back to the host
scheduler (`await setTimeout(..., 1)` between batches): once after each
batch whose end index `i + batchSize` is still below the node count. -/
def yieldCountLoop (b : Nat) : List α → Nat
  | [] => 0
  | x :: xs =>
    (if b < (x :: xs).length then 1 else 0) + yieldCountLoop b (xs.drop (b - 1))
termination_by l => l.length
decreasing_by
  simp only [List.length_cons, List.length_drop]
  omega

/- ### Repository mappings and the detection set -/

/-- `RepositoryMapping` from `@/types`. -/
structure RepositoryMapping where
  id : JSString
  repository : JSString
  trackerUrl : JSString
  keyPrefix : JSString
  enabled : Bool
  createdAt : JSString
  updatedAt : JSString
deriving DecidableEq

/-- An element of `LinkProcessor.detectedKeys`:
`{ key: string; mapping: RepositoryMapping }`. -/
structure DetectedKey where
  key : JSString
  mapping : RepositoryMapping
deriving DecidableEq

/-- The body of the match loop of `detectKeysInTextNode` and
`detectKeysInExistingLinks`: push `{key, mapping}` unless an entry
with the same key text and the same mapping `keyPrefix` was already
detected (`alreadyDetected`). -/
def detectKeyStep (m : RepositoryMapping) (acc : List DetectedKey) (key : JSString) :
    List DetectedKey :=
  if acc.any (fun d => d.key == key && d.mapping.keyPrefix == m.keyPrefix) then
    acc
  else
    acc ++ [{ key := key, mapping := m }]

/-- The shared body of `detectKeysInTextNode` and
`detectKeysInExistingLinks`: for each mapping, run its pattern's exec
loop over the text and push `{key, mapping}` for every match whose
`(key, mapping.keyPrefix)` pair is not already in the accumulated
detection list. -/
def detectInText (mappings : List RepositoryMapping) (detected : List DetectedKey)
    (text : JSString) : List DetectedKey :=
  mappings.foldl (fun acc m =>
    (execAll m.keyPrefix text).foldl (detectKeyStep m) acc) detected

/-- The detection effect of one `LinkProcessor.processTextNodes` call on
the detection set: first `detectKeysInExistingLinks` scans the
`textContent` of every anchor under the element, then the batch loop
scans the collected text nodes in document order (`linkTexts` and
`texts` are those two text sequences; batching does not change which
texts are scanned or their order, and text nodes nested under an anchor
were already excluded by the collection step). -/
def processTextNodesDetect (mappings : List RepositoryMapping)
    (detected : List DetectedKey) (linkTexts texts : List JSString) :
    List DetectedKey :=
  texts.foldl (detectInText mappings) (linkTexts.foldl (detectInText mappings) detected)

/-- One step of the JavaScript `Map.set` used by
`getUniqueDetectedKeys`: overwrite the value in place when the key is
present, append otherwise (JS maps preserve first-insertion key order). -/
def jsMapSet (m : List (JSString × DetectedKey)) (k : JSString) (v : DetectedKey) :
    List (JSString × DetectedKey) :=
  if m.any (fun p => p.1 == k) then
    m.map (fun p => if p.1 == k then (k, v) else p)
  else
    m ++ [(k, v)]

/-- `LinkProcessor.getUniqueDetectedKeys`: fold the detection list into
a JS map keyed by the key text and return `Array.from(unique.values())`. -/
def getUniqueDetectedKeys (detected : List DetectedKey) : List DetectedKey :=
  (detected.foldl (fun m item => jsMapSet m item.key item) []).map Prod.snd

/- ### The `LinkProcessor` state machine -/

/-- The mutable state of a `LinkProcessor` instance. -/
structure ProcessorState where
  mappings : List RepositoryMapping
  processedCount : Nat
  detectedKeys : List DetectedKey
  options : LinkProcessingOptions
deriving DecidableEq

/-- A freshly constructed `LinkProcessor` (the `ContentScript`
constructs it with no option overrides). -/
def ProcessorState.construct (elementCount : Nat) : ProcessorState :=
  { mappings := []
    processedCount := 0
    detectedKeys := []
    options := constructorOptions elementCount none }

/-- The state effect of `processTextNodes`: the detection pass plus the
`processedCount` increments of `processBatch` (one per text node with
non-null content; contents modelled here are never null). -/
def ProcessorState.runTextNodes (s : ProcessorState) (linkTexts texts : List JSString) :
    ProcessorState :=
  { s with
    detectedKeys := processTextNodesDetect s.mappings s.detectedKeys linkTexts texts
    processedCount := s.processedCount + texts.length }

/-- The operations that can touch a `LinkProcessor` after construction.
`processElement` is `processElementImmediately` applied to an element
whose anchor texts and collected text nodes are `linkTexts`/`texts` and
whose wall-clock elapsed time (`performance.now()` difference, in
milliseconds) is `elapsed`; `observerScan` is the
intersection-observer callback path, which runs `processTextNodes`
without the timing check; `reset` and `destroy` are the public
teardown operations. -/
inductive ProcessorOp where
  | setMappings (ms : List RepositoryMapping)
  | processElement (elapsed : Nat) (linkTexts texts : List JSString)
  | observerScan (linkTexts texts : List JSString)
  | reset
  | destroy

/-- One operation of the `LinkProcessor`.  In `processElement`, the
mode is forced to `'fast'` exactly when the elapsed time strictly
exceeds `options.maxProcessingTime` (`processingTime >
this.options.maxProcessingTime`); no other operation writes
`performanceMode`. -/
def ProcessorState.step (s : ProcessorState) : ProcessorOp → ProcessorState
  | .setMappings ms => { s with mappings := ms }
  | .processElement elapsed linkTexts texts =>
    let s' := s.runTextNodes linkTexts texts
    if s'.options.maxProcessingTime < elapsed then
      { s' with options := { s'.options with performanceMode := .fast } }
    else
      s'
  | .observerScan linkTexts texts => s.runTextNodes linkTexts texts
  | .reset => { s with processedCount := 0, detectedKeys := [] }
  | .destroy => s

/- ### The WHATWG `URL` host class and `encodeURIComponent`

The source calls `new URL(url)` (throwing on invalid input),
`url.protocol`, `url.hostname`, `url.pathname`, `url.toString()` and
`encodeURIComponent`.  These are host primitives; the model below
implements the fragment of the WHATWG URL standard the source
exercises: scheme parsing (lowercased), the special-scheme authority
(any run of slashes after the colon, a lowercased host drawn from the
common host alphabet, an optional port with default-port elision) and
the path / query / fragment split.  Userinfo, percent-decoding,
punycode and dot-segment normalisation are outside the model's scope;
no claim below depends on them. -/

/-- Schemes the URL standard calls special (authority-bearing). -/
def specialSchemes : List JSString :=
  ["http".data, "https".data, "ws".data, "wss".data, "ftp".data, "file".data]

/-- Default ports elided by URL serialisation. -/
def defaultPort (scheme : JSString) : Option Nat :=
  if scheme = "http".data then some 80
  else if scheme = "https".data then some 443
  else if scheme = "ws".data then some 80
  else if scheme = "wss".data then some 443
  else if scheme = "ftp".data then some 21
  else none

/-- A parsed URL record: the scheme (lowercased, without the colon), the
host (lowercased, empty for non-special schemes), the optional explicit
non-default port, the path (empty or starting with `/` for special
schemes; the raw opaque remainder for others) and the raw query/fragment
tail (including its leading `?` or `#` when present). -/
structure URLRec where
  scheme : JSString
  host : JSString
  port : Option Nat
  path : JSString
  tail : JSString
deriving DecidableEq

/-- Characters the model's hosts may contain (letters, digits, `.`,
`-`, `_`); hosts outside this alphabet are rejected as invalid. -/
def isHostChar (c : Char) : Bool :=
  c.isAlpha || c.isDigit || c = '.' || c = '-' || c = '_'

/-- First scheme character: an ASCII letter. -/
def isSchemeStartChar (c : Char) : Bool := c.isAlpha

/-- Subsequent scheme characters: ASCII alphanumerics, `+`, `-`, `.`. -/
def isSchemeChar (c : Char) : Bool :=
  c.isAlpha || c.isDigit || c = '+' || c = '-' || c = '.'

/-- The model of the `new URL(input)` host constructor; `none` embeds
the `TypeError` the host throws on unparsable input. -/
def parseURL (input : JSString) : Option URLRec :=
  match input with
  | [] => none
  | c :: rest =>
    if !isSchemeStartChar c then none
    else
      let schemeRaw := c :: rest.takeWhile isSchemeChar
      let afterScheme := rest.dropWhile isSchemeChar
      match afterScheme with
      | ':' :: remainder =>
        let scheme := schemeRaw.map Char.toLower
        if specialSchemes.contains scheme then
          -- special authority slashes: skip every leading / or \
          let afterSlashes := remainder.dropWhile (fun d => d = '/' || d = '\\')
          let authority := afterSlashes.takeWhile
            (fun d => !(d = '/' || d = '?' || d = '#' || d = '\\'))
          let afterAuthority := afterSlashes.dropWhile
            (fun d => !(d = '/' || d = '?' || d = '#' || d = '\\'))
          let hostRaw := authority.takeWhile (fun d => d ≠ ':')
          let portPart := (authority.dropWhile (fun d => d ≠ ':')).drop 1
          if hostRaw = [] || !hostRaw.all isHostChar then none
          else if !portPart.all Char.isDigit then none
          else
            let host := hostRaw.map Char.toLower
            let port :=
              if portPart = [] then none
              else
                let p := portPart.foldl (fun n d => n * 10 + (d.toNat - '0'.toNat)) 0
                if defaultPort scheme = some p then none else some p
            if (portPart.foldl (fun n d => n * 10 + (d.toNat - '0'.toNat)) 0) > 65535 then
              none
            else
              -- in the special path, \ is treated as /
              let pathAndTail := afterAuthority.map (fun d => if d = '\\' then '/' else d)
              let path := pathAndTail.takeWhile (fun d => !(d = '?' || d = '#'))
              let tail := pathAndTail.dropWhile (fun d => !(d = '?' || d = '#'))
              some { scheme := scheme, host := host, port := port, path := path,
                     tail := tail }
        else
          -- non-special scheme: an opaque path and an empty hostname
          some { scheme := scheme, host := [], port := none, path := remainder,
                 tail := [] }
      | _ => none

/-- `url.toString()` / `url.href`: serialise the record.  For a special
scheme the authority is printed after `//`, a non-default port after
`:`, and an empty path serialises as `/` — the slash the host class
appends to an origin-only URL.  Opaque (non-special) URLs print their
raw path after the colon. -/
def URLRec.serialize (u : URLRec) : JSString :=
  if specialSchemes.contains u.scheme then
    u.scheme ++ [':'] ++ "//".data ++ u.host ++
      (match u.port with
       | none => []
       | some p => ':' :: (Nat.toDigits 10 p)) ++
      (if u.path = [] then ['/'] else u.path) ++ u.tail
  else
    u.scheme ++ [':'] ++ u.path ++ u.tail

/-- `url.protocol`: the lowercased scheme followed by `:`. -/
def URLRec.protocol (u : URLRec) : JSString := u.scheme ++ [':']

/-- Characters `encodeURIComponent` leaves unescaped:
`[A-Za-z0-9-_.!~*'()]`. -/
def isUriUnreserved (c : Char) : Bool :=
  c.isAlpha || c.isDigit || c = '-' || c = '_' || c = '.' || c = '!' ||
    c = '~' || c = '*' || c = '\'' || c = '(' || c = ')'

/-- UTF-8 bytes of one character. -/
def utf8Bytes (c : Char) : List Nat :=
  let n := c.toNat
  if n < 0x80 then [n]
  else if n < 0x800 then
    [0xC0 + n / 64, 0x80 + n % 64]
  else if n < 0x10000 then
    [0xE0 + n / 4096, 0x80 + (n / 64) % 64, 0x80 + n % 64]
  else
    [0xF0 + n / 262144, 0x80 + (n / 4096) % 64, 0x80 + (n / 64) % 64, 0x80 + n % 64]

/-- Upper-case hexadecimal digit. -/
def hexDigitChar (n : Nat) : Char :=
  if n < 10 then Char.ofNat ('0'.toNat + n) else Char.ofNat ('A'.toNat + (n - 10))

/-- `%XX` escape of one byte. -/
def percentEscape (b : Nat) : JSString :=
  ['%', hexDigitChar (b / 16), hexDigitChar (b % 16)]

/-- The `encodeURIComponent` host function: unreserved characters pass
through, every other character is percent-escaped byte-wise in UTF-8. -/
def encodeURIComponent (s : JSString) : JSString :=
  s.flatMap fun c =>
    if isUriUnreserved c then [c] else (utf8Bytes c).flatMap percentEscape

/- ### `sanitizeUrl`, `GenericTracker.generateUrl` / `validateUrl` -/

/-- `sanitizeUrl` from `lib/utils`: parse the URL, throw unless the
protocol is exactly `https:`, and return the serialised form.  Both the
parse failure and the non-https throw are caught by the function's own
`catch`, which rethrows `Error('Invalid URL format')`. -/
def sanitizeUrl (url : JSString) : Except JSString JSString :=
  match parseURL url with
  | none => .error "Invalid URL format".data
  | some u =>
    if u.protocol ≠ "https:".data then .error "Invalid URL format".data
    else .ok u.serialize

namespace GenericTracker

/-- `GenericTracker.generateUrl`: `${sanitizeUrl(baseUrl)}/${encodeURIComponent(key)}`;
the sanitizer's exception propagates to the caller. -/
def generateUrl (key baseUrl : JSString) : Except JSString JSString :=
  match sanitizeUrl baseUrl with
  | .error e => .error e
  | .ok sanitized => .ok (sanitized ++ ['/'] ++ encodeURIComponent key)

/-- `GenericTracker.validateUrl`: try to parse; true exactly when the
protocol is `https:` and the hostname is nonempty; any parse exception
is caught and yields `false`. -/
def validateUrl (url : JSString) : Bool :=
  match parseURL url with
  | none => false
  | some u => u.protocol == "https:".data && u.host.length > 0

end GenericTracker

/- ### The text scanner: DOM model, `shouldExcludeElement`, `getTextNodes`

The DOM fragment the scanner reads: an element has a tag name (stored
here in its canonical lowercase form), an optional `contenteditable`
attribute, a class list and children; a text node has content.  The
scanner sees each text node together with its chain of ancestor
elements (nearest first), which is what `Element.closest` walks. -/

/-- The data of one element the exclusion selectors can observe. -/
structure ElemData where
  tag : JSString
  contenteditable : Option JSString
  classes : List JSString
deriving DecidableEq

/-- A DOM node. -/
inductive DomNode where
  | elem (data : ElemData) (children : List DomNode)
  | text (content : JSString)

/-- The CSS selectors of `shouldExcludeElement`'s fixed deny list. -/
inductive ExcludeSelector where
  | tagSel (tag : JSString)
  | contenteditableTrue
  | classSel (cls : JSString)
deriving DecidableEq

/-- `excludeSelectors` from `lib/utils`: `input, textarea, select,
button, a, code, pre, [contenteditable="true"], .CodeMirror,
.ace_editor, .monaco-editor`. -/
def excludeSelectors : List ExcludeSelector :=
  [.tagSel "input".data, .tagSel "textarea".data, .tagSel "select".data,
   .tagSel "button".data, .tagSel "a".data, .tagSel "code".data, .tagSel "pre".data,
   .contenteditableTrue,
   .classSel "CodeMirror".data, .classSel "ace_editor".data,
   .classSel "monaco-editor".data]

/-- Whether one element matches one of the deny-list selectors. -/
def matchesSelector (e : ElemData) : ExcludeSelector → Bool
  | .tagSel t => e.tag == t
  | .contenteditableTrue => e.contenteditable == some "true".data
  | .classSel cls => e.classes.contains cls

/-- `element.closest(sel)` over the self-and-ancestors chain (nearest
first): the first matching element, if any. -/
def closestMatch (chain : List ElemData) (sel : ExcludeSelector) : Option ElemData :=
  chain.find? (fun e => matchesSelector e sel)

/-- `shouldExcludeElement` from `lib/utils`, applied to the element
whose self-and-ancestors chain is `chain`:
`excludeSelectors.some(sel => element.closest(sel) !== null)`. -/
def shouldExcludeElement (chain : List ElemData) : Bool :=
  excludeSelectors.any (fun sel => (closestMatch chain sel).isSome)

/-- `!textContent.trim()`: the trimmed content is empty exactly when
every character is whitespace. -/
def trimmedEmpty (s : JSString) : Bool :=
  s.all Char.isWhitespace

/-- The `TreeWalker` of `getTextNodes` over the children of an element
whose self-and-ancestors chain is `chain`: every text descendant is
visited in document order, and one is kept unless its trimmed content
is empty or `shouldExcludeElement(parentElement)` holds. -/
def getTextNodesAux (chain : List ElemData) : List DomNode → List JSString
  | [] => []
  | .text s :: rest =>
    (if !trimmedEmpty s && !shouldExcludeElement chain then [s] else []) ++
      getTextNodesAux chain rest
  | .elem e cs :: rest =>
    getTextNodesAux (e :: chain) cs ++ getTextNodesAux chain rest

/-- `getTextNodes(element)` from `lib/utils`, for an element with data
`e`, children `cs` and ancestor chain `ancestors` (nearest first). -/
def getTextNodes (e : ElemData) (cs : List DomNode) (ancestors : List ElemData) :
    List JSString :=
  getTextNodesAux (e :: ancestors) cs

/-- Every text descendant below a list of children, paired with the
self-and-ancestors chain of its parent element — the unfiltered
enumeration the `TreeWalker` traverses, in document order. -/
def allTextNodes (chain : List ElemData) : List DomNode → List (List ElemData × JSString)
  | [] => []
  | .text s :: rest => (chain, s) :: allTextNodes chain rest
  | .elem e cs :: rest => allTextNodes (e :: chain) cs ++ allTextNodes chain rest

/-- `node.textContent` of a list of children: the concatenation of all
text descendants in document order. -/
def textContentOf : List DomNode → JSString
  | [] => []
  | .text s :: rest => s ++ textContentOf rest
  | .elem _ cs :: rest => textContentOf cs ++ textContentOf rest

/-- `element.querySelectorAll('a')` followed by reading each link's
`textContent` — the inputs of `detectKeysInExistingLinks`: anchors are
the descendant elements with tag `a`, in document order. -/
def anchorTexts : List DomNode → List JSString
  | [] => []
  | .text _ :: rest => anchorTexts rest
  | .elem e cs :: rest =>
    (if e.tag == "a".data then [textContentOf cs] else []) ++ anchorTexts cs ++
      anchorTexts rest

/- ### Storage and the content-script navigation handler -/

/-- The storage state the navigation path reads and writes: the
repository-mapping list (local tier) and the per-repository
processing-cache entries (session tier, here an association list with
an opaque payload). -/
structure StorageState where
  repositoryMappings : List RepositoryMapping
  processingCache : List (JSString × JSString)
deriving DecidableEq

/-- `storage.getMappingForRepository`: the enabled mappings whose
`repository` equals the requested one. -/
def getMappingForRepository (st : StorageState) (repository : JSString) :
    List RepositoryMapping :=
  st.repositoryMappings.filter (fun m => m.repository == repository && m.enabled)

/-- `storage.clearProcessingCache`: `delete cache[repository]`. -/
def clearProcessingCache (st : StorageState) (repository : JSString) : StorageState :=
  { st with processingCache := st.processingCache.filter (fun p => p.1 ≠ repository) }

/-- `extractRepositoryFromUrl` from `lib/utils`: parse the URL, split
the pathname on `/`, keep the nonempty segments, and return
`"<org>/<repo>"` when at least two remain; any parse error yields
`null`. -/
def splitOnChar (sep : Char) (s : JSString) : List JSString :=
  match s with
  | [] => [[]]
  | c :: rest =>
    let parts := splitOnChar sep rest
    if c = sep then [] :: parts
    else
      match parts with
      | [] => [[c]]
      | p :: ps => (c :: p) :: ps

/-- `extractRepositoryFromUrl` from `lib/utils`. -/
def extractRepositoryFromUrl (url : JSString) : Option JSString :=
  match parseURL url with
  | none => none
  | some u =>
    let pathParts := (splitOnChar '/' u.path).filter (fun p => p ≠ [])
    match pathParts with
    | p0 :: p1 :: _ => some (p0 ++ ['/'] ++ p1)
    | _ => none

/-- The content-script state the navigation handler touches. -/
structure ContentState where
  storage : StorageState
  currentRepository : Option JSString
  processor : ProcessorState
deriving DecidableEq

/-- The externally observable effects `handleNavigation` produces, in
execution order. -/
inductive NavEffect where
  | clearedCache (repository : JSString)
  | fetchedMappings (repository : JSString) (mappings : List RepositoryMapping)
  | scheduledRescan (delayMs : Nat)
deriving DecidableEq

/-- `ContentScript.handleNavigation` for the page URL `url`: always
reset the link processor's detection state; when the repository portion
of the URL changed, clear the processing-cache entry of the old
repository, adopt the new repository and fetch and install its
mappings; finally — whenever a current repository remains — schedule
`processInitialContent` after the fixed 500 ms settle delay. -/
def handleNavigation (st : ContentState) (url : JSString) :
    ContentState × List NavEffect :=
  let newRepository := extractRepositoryFromUrl url
  -- `this.linkProcessor.reset()`, unconditionally
  let st := { st with processor := st.processor.step .reset }
  let (st, changeEffects) :=
    if newRepository ≠ st.currentRepository then
      let (st, clearEffects) :=
        match st.currentRepository with
        | some old =>
          ({ st with storage := clearProcessingCache st.storage old },
           [NavEffect.clearedCache old])
        | none => (st, [])
      let st := { st with currentRepository := newRepository }
      match newRepository with
      | some r =>
        let ms := getMappingForRepository st.storage r
        ({ st with processor := st.processor.step (.setMappings ms) },
         clearEffects ++ [NavEffect.fetchedMappings r ms])
      | none => (st, clearEffects)
    else
      (st, [])
  match st.currentRepository with
  | some _ => (st, changeEffects ++ [NavEffect.scheduledRescan 500])
  | none => (st, changeEffects)

/-! ## Theorems -/

/- ### C4: the construction-time decision table -/

/-- C4.  At Link Processor construction (starting from the default
`'auto'` mode), the scan options are derived from the live element
count `n` exactly by the decision table: `n < 1000` gives
comprehensive / 100 ms / batch 100 / no visibility deferral;
`1000 ≤ n < 5000` gives auto / 500 ms / batch 50 / no deferral;
`n ≥ 5000` gives fast / 200 ms / batch 25 / deferral enabled. -/
theorem construct_options_decision_table (n : Nat) :
    (ProcessorState.construct n).options =
      if n < 1000 then
        { performanceMode := .comprehensive, maxProcessingTime := 100,
          batchSize := 100, useIntersectionObserver := false }
      else if n < 5000 then
        { performanceMode := .auto, maxProcessingTime := 500,
          batchSize := 50, useIntersectionObserver := false }
      else
        { performanceMode := .fast, maxProcessingTime := 200,
          batchSize := 25, useIntersectionObserver := true } := by
  show adaptToDocumentSize n defaultOptions = _
  unfold adaptToDocumentSize
  by_cases h1 : n < 1000 <;> by_cases h2 : n < 5000 <;> simp [h1, h2]

/- ### C5: the one-way performance-mode downgrade -/

/-- No single `LinkProcessor` operation leaves the `'fast'` mode. -/
theorem step_preserves_fast (s : ProcessorState) (op : ProcessorOp)
    (h : s.options.performanceMode = .fast) :
    (s.step op).options.performanceMode = .fast := by
  cases op with
  | setMappings ms => simp only [ProcessorState.step]; exact h
  | processElement elapsed linkTexts texts =>
    simp only [ProcessorState.step, ProcessorState.runTextNodes]
    split
    · rfl
    · exact h
  | observerScan linkTexts texts =>
    simp only [ProcessorState.step, ProcessorState.runTextNodes]
    exact h
  | reset => simp only [ProcessorState.step]; exact h
  | destroy => simp only [ProcessorState.step]; exact h

/-- C5.  The performance-mode transition is monotone one-way: a
`processElement` call ends in `'fast'` mode exactly when its elapsed
wall-clock time strictly exceeded `maxProcessingTime` or the mode was
already `'fast'`; and once the mode is `'fast'`, no sequence of
subsequent Link Processor operations within the page lifetime ever
leaves `'fast'`. -/
theorem performanceMode_one_way (s : ProcessorState) (ops : List ProcessorOp)
    (elapsed : Nat) (linkTexts texts : List JSString) :
    (s.options.performanceMode = .fast →
      (ops.foldl ProcessorState.step s).options.performanceMode = .fast) ∧
    ((s.step (.processElement elapsed linkTexts texts)).options.performanceMode = .fast ↔
      (s.options.maxProcessingTime < elapsed ∨ s.options.performanceMode = .fast)) := by
  constructor
  · intro h
    induction ops generalizing s with
    | nil => exact h
    | cons op ops ih => exact ih _ (step_preserves_fast s op h)
  · simp only [ProcessorState.step]
    split
    · next hlt =>
      constructor
      · intro _
        exact Or.inl hlt
      · intro _
        rfl
    · next hge =>
      have hopts : (ProcessorState.runTextNodes s linkTexts texts).options = s.options := rfl
      rw [hopts] at hge ⊢
      constructor
      · exact Or.inr
      · rintro (h | h)
        · exact absurd h hge
        · exact h

/-- Witness for C5: a page with 6000 elements starts in `'fast'` mode
and stays there across further operations, and a 501 ms scan on a
medium page (limit 500 ms) downgrades the mode. -/
theorem performanceMode_one_way_witness :
    ((ProcessorState.construct 6000).options.performanceMode = .fast) ∧
    (([ProcessorOp.reset, .setMappings [], .destroy].foldl ProcessorState.step
        (ProcessorState.construct 6000)).options.performanceMode = .fast) ∧
    (((ProcessorState.construct 1500).step
        (.processElement 501 [] [])).options.performanceMode = .fast) :=
  ⟨by decide,
   (performanceMode_one_way (ProcessorState.construct 6000)
      [ProcessorOp.reset, .setMappings [], .destroy] 0 [] []).1 (by decide),
   (performanceMode_one_way (ProcessorState.construct 1500) [] 501 [] []).2.mpr
      (Or.inl (by decide))⟩

/- ### C6: deduplication of the exposed detection result -/

/-- Replacing the value stored under `k` does not change which entry
`find?` locates for other keys, and locates `(k, v)` for `k` itself
when an entry with key `k` exists. -/
theorem find?_map_replace (m : List (JSString × DetectedKey)) (k k' : JSString)
    (v : DetectedKey) :
    (m.map (fun p => if p.1 == k then (k, v) else p)).find? (fun p => p.1 == k') =
      if k' = k then (m.find? (fun p => p.1 == k)).map (fun _ => (k, v))
      else m.find? (fun p => p.1 == k') := by
  induction m with
  | nil => by_cases hk : k' = k <;> simp [hk]
  | cons p m ih =>
    simp only [List.map_cons]
    by_cases hp : p.1 = k
    · rw [show (if p.1 == k then (k, v) else p) = (k, v) by simp [hp]]
      by_cases hk : k' = k
      · rw [if_pos hk, List.find?_cons_of_pos _ (by simp [hk]),
          List.find?_cons_of_pos _ (by simp [hp])]
        rfl
      · rw [if_neg hk, List.find?_cons_of_neg _ (by simp; exact Ne.symm hk),
          List.find?_cons_of_neg _ (by simp [hp]; exact fun h => hk (h ▸ rfl))]
        rw [ih, if_neg hk]
    · rw [show (if p.1 == k then (k, v) else p) = p by simp [hp]]
      by_cases hp' : p.1 = k'
      · by_cases hk : k' = k
        · exact absurd (hp'.trans hk) hp
        · rw [if_neg hk, List.find?_cons_of_pos _ (by simp [hp']),
            List.find?_cons_of_pos _ (by simp [hp'])]
      · by_cases hk : k' = k
        · rw [if_pos hk, List.find?_cons_of_neg _ (by simp [hp']),
            List.find?_cons_of_neg _ (by simp [hp]), ih, if_pos hk]
        · rw [if_neg hk, List.find?_cons_of_neg _ (by simp [hp']),
            List.find?_cons_of_neg _ (by simp [hp']), ih, if_neg hk]

/-- The `Map.set` step: `find?` afterwards returns the new entry for
the written key and is unchanged for every other key. -/
theorem jsMapSet_find? (m : List (JSString × DetectedKey)) (k k' : JSString)
    (v : DetectedKey) :
    (jsMapSet m k v).find? (fun p => p.1 == k') =
      if k' = k then some (k, v) else m.find? (fun p => p.1 == k') := by
  unfold jsMapSet
  by_cases hany : m.any (fun p => p.1 == k)
  · rw [if_pos hany, find?_map_replace]
    by_cases hk : k' = k
    · rw [if_pos hk, if_pos hk]
      rcases List.any_eq_true.mp hany with ⟨p, hpm, hpk⟩
      have hsome : (m.find? (fun p => p.1 == k)).isSome := by
        rw [List.find?_isSome]
        exact ⟨p, hpm, hpk⟩
      rcases Option.isSome_iff_exists.mp hsome with ⟨q, hq⟩
      rw [hq]
      rfl
    · rw [if_neg hk, if_neg hk]
  · rw [if_neg hany, List.find?_append]
    by_cases hk : k' = k
    · have hnone : m.find? (fun p => p.1 == k') = none := by
        rw [List.find?_eq_none]
        intro p hpm
        simp only [beq_iff_eq]
        intro hpk
        exact hany (List.any_eq_true.mpr ⟨p, hpm, by simp [hpk, hk]⟩)
      rw [hnone, if_pos hk, Option.none_or, List.find?_cons_of_pos _ (by simp [hk])]
    · rw [if_neg hk]
      rw [show List.find? (fun p => p.1 == k') [(k, v)] = none by
        simp; exact Ne.symm hk]
      cases hfind : m.find? (fun p => p.1 == k') <;> rfl

/-- The `Map.set` step preserves the well-formedness invariant that
every stored pair's value carries its key. -/
theorem jsMapSet_wf (m : List (JSString × DetectedKey)) (k : JSString) (v : DetectedKey)
    (hv : v.key = k) (hm : ∀ p ∈ m, p.2.key = p.1) :
    ∀ p ∈ jsMapSet m k v, p.2.key = p.1 := by
  unfold jsMapSet
  split
  · intro p hp
    rcases List.mem_map.mp hp with ⟨q, hqm, hq⟩
    by_cases hqk : q.1 = k
    · simp only [hqk, beq_self_eq_true, if_pos] at hq
      rw [← hq]
      exact hv
    · rw [show (if q.1 == k then (k, v) else q) = q by simp [hqk]] at hq
      rw [← hq]
      exact hm q hqm
  · intro p hp
    rcases List.mem_append.mp hp with hpm | hpv
    · exact hm p hpm
    · simp only [List.mem_singleton] at hpv
      rw [hpv]
      exact hv

/-- The `Map.set` step preserves key uniqueness. -/
theorem jsMapSet_keys_nodup (m : List (JSString × DetectedKey)) (k : JSString)
    (v : DetectedKey) (h : (m.map Prod.fst).Nodup) :
    ((jsMapSet m k v).map Prod.fst).Nodup := by
  unfold jsMapSet
  split
  · have hmap : (m.map (fun p => if p.1 == k then (k, v) else p)).map Prod.fst =
        m.map Prod.fst := by
      rw [List.map_map]
      apply List.map_congr_left
      intro p _
      by_cases hp : p.1 = k
      · simp [hp]
      · simp [hp]
    rw [hmap]
    exact h
  · next hany =>
    rw [List.map_append]
    simp only [List.map_cons, List.map_nil]
    apply List.Nodup.append h (List.nodup_singleton k)
    intro a ham has
    simp only [List.mem_singleton] at has
    rcases List.mem_map.mp ham with ⟨p, hpm, hpk⟩
    exact hany (List.any_eq_true.mpr ⟨p, hpm, by simp [hpk, has]⟩)

/-- After folding the detection list into the JS map, `find?` at key
`k` returns the pair of `k` with the last detection whose key is `k`
(and falls back to the initial map when there is none). -/
theorem foldl_jsMapSet_find? (l : List DetectedKey) (m0 : List (JSString × DetectedKey))
    (k : JSString) :
    ((l.foldl (fun m item => jsMapSet m item.key item) m0).find? (fun p => p.1 == k)) =
      match l.reverse.find? (fun d => d.key == k) with
      | some d => some (k, d)
      | none => m0.find? (fun p => p.1 == k) := by
  induction l generalizing m0 with
  | nil => simp
  | cons x l ih =>
    simp only [List.foldl_cons, List.reverse_cons, List.find?_append]
    rw [ih]
    cases hrev : l.reverse.find? (fun d => d.key == k) with
    | some d => simp
    | none =>
      simp only [Option.none_or]
      rw [jsMapSet_find?]
      by_cases hx : k = x.key
      · rw [if_pos hx, List.find?_cons_of_pos _ (by simp [hx.symm]), ← hx]
      · rw [if_neg hx, List.find?_cons_of_neg _ (by simp; exact fun h => hx h.symm)]
        rfl

/-- Folding the detection list into the JS map preserves
well-formedness from the empty map. -/
theorem foldl_jsMapSet_wf (l : List DetectedKey) (m0 : List (JSString × DetectedKey))
    (hm : ∀ p ∈ m0, p.2.key = p.1) :
    ∀ p ∈ l.foldl (fun m item => jsMapSet m item.key item) m0, p.2.key = p.1 := by
  induction l generalizing m0 with
  | nil => exact hm
  | cons x l ih =>
    simp only [List.foldl_cons]
    exact ih _ (jsMapSet_wf m0 x.key x rfl hm)

/-- Folding the detection list into the JS map preserves key
uniqueness. -/
theorem foldl_jsMapSet_keys_nodup (l : List DetectedKey)
    (m0 : List (JSString × DetectedKey)) (hm : (m0.map Prod.fst).Nodup) :
    (((l.foldl (fun m item => jsMapSet m item.key item) m0)).map Prod.fst).Nodup := by
  induction l generalizing m0 with
  | nil => exact hm
  | cons x l ih =>
    simp only [List.foldl_cons]
    exact ih _ (jsMapSet_keys_nodup m0 x.key x hm)

/-- In a map with pairwise-distinct keys, `find?` at a member's key
returns that member. -/
theorem find?_of_mem_nodup_keys (m : List (JSString × DetectedKey))
    (h : (m.map Prod.fst).Nodup) (p : JSString × DetectedKey) (hp : p ∈ m) :
    m.find? (fun q => q.1 == p.1) = some p := by
  induction m with
  | nil => cases hp
  | cons q m ih =>
    simp only [List.map_cons, List.nodup_cons] at h
    rcases List.mem_cons.mp hp with hpq | hpm
    · rw [hpq, List.find?_cons_of_pos _ (by simp)]
    · have hne : q.1 ≠ p.1 := by
        intro he
        exact h.1 (he ▸ List.mem_map.mpr ⟨p, hpm, rfl⟩)
      rw [List.find?_cons_of_neg _ (by simpa using hne)]
      exact ih h.2 hpm

/-- C6.  In every state of the Link Processor, the exposed
deduplicated detection result contains at most one entry per key
string, and each exposed entry is exactly the last-inserted detection
carrying that key (last-write-wins across mappings). -/
theorem getUniqueDetectedKeys_spec (l : List DetectedKey) :
    ((getUniqueDetectedKeys l).map DetectedKey.key).Nodup ∧
      ∀ e ∈ getUniqueDetectedKeys l,
        l.reverse.find? (fun d => d.key == e.key) = some e := by
  have hwf := foldl_jsMapSet_wf l [] (by intro p hp; cases hp)
  have hnodup := foldl_jsMapSet_keys_nodup l [] List.nodup_nil
  constructor
  · unfold getUniqueDetectedKeys
    rw [List.map_map]
    have hcongr : (l.foldl (fun m item => jsMapSet m item.key item) []).map
        (DetectedKey.key ∘ Prod.snd) =
        (l.foldl (fun m item => jsMapSet m item.key item) []).map Prod.fst :=
      List.map_congr_left (fun p hp => hwf p hp)
    rw [hcongr]
    exact hnodup
  · intro e he
    unfold getUniqueDetectedKeys at he
    rcases List.mem_map.mp he with ⟨p, hpm, hpe⟩
    have hkey : p.1 = e.key := by rw [← hpe]; exact (hwf p hpm).symm
    have hfind := find?_of_mem_nodup_keys _ hnodup p hpm
    rw [foldl_jsMapSet_find?] at hfind
    cases hrev : l.reverse.find? (fun d => d.key == p.1) with
    | none =>
      rw [hrev] at hfind
      simp at hfind
    | some d =>
      rw [hrev] at hfind
      simp only [Option.some_inj] at hfind
      have hd : d = p.2 := congrArg Prod.snd hfind
      rw [hkey] at hrev
      rw [hrev, hd, hpe]

/-- Witness for C6: two detections of the key text `WMS-42` under two
different mappings collapse to one exposed entry carrying the
last-inserted mapping. -/
theorem getUniqueDetectedKeys_spec_witness :
    ((⟨"WMS-42".data, ⟨"2".data, "acme/widgets".data, "https://b.example".data,
        "WMS".data, true, [], []⟩⟩ : DetectedKey) ∈
      getUniqueDetectedKeys
        [⟨"WMS-42".data, ⟨"1".data, "acme/widgets".data, "https://a.example".data,
            "WMS".data, true, [], []⟩⟩,
         ⟨"WMS-42".data, ⟨"2".data, "acme/widgets".data, "https://b.example".data,
            "WMS".data, true, [], []⟩⟩]) ∧
    [(⟨"WMS-42".data, ⟨"1".data, "acme/widgets".data, "https://a.example".data,
        "WMS".data, true, [], []⟩⟩ : DetectedKey),
     ⟨"WMS-42".data, ⟨"2".data, "acme/widgets".data, "https://b.example".data,
        "WMS".data, true, [], []⟩⟩].reverse.find?
      (fun d => d.key == "WMS-42".data) =
      some ⟨"WMS-42".data, ⟨"2".data, "acme/widgets".data, "https://b.example".data,
        "WMS".data, true, [], []⟩⟩ := by
  refine ⟨by decide, ?_⟩
  exact (getUniqueDetectedKeys_spec
    [⟨"WMS-42".data, ⟨"1".data, "acme/widgets".data, "https://a.example".data,
        "WMS".data, true, [], []⟩⟩,
     ⟨"WMS-42".data, ⟨"2".data, "acme/widgets".data, "https://b.example".data,
        "WMS".data, true, [], []⟩⟩]).2
    ⟨"WMS-42".data, ⟨"2".data, "acme/widgets".data, "https://b.example".data,
        "WMS".data, true, [], []⟩⟩ (by decide)

/- ### C2: the batch loop and its yield points -/

/-- Unfolding lemma: no batches for an empty node list. -/
theorem batchSplit_nil (b : Nat) : batchSplit b ([] : List α) = [] := by
  simp [batchSplit]

/-- Unfolding lemma: one batch of the first `b` nodes, then the rest. -/
theorem batchSplit_cons (b : Nat) (x : α) (xs : List α) :
    batchSplit b (x :: xs) = (x :: xs.take (b - 1)) :: batchSplit b (xs.drop (b - 1)) := by
  simp [batchSplit]

/-- Unfolding lemma: no yields for an empty node list. -/
theorem yieldCountLoop_nil (b : Nat) : yieldCountLoop b ([] : List α) = 0 := by
  simp [yieldCountLoop]

/-- Unfolding lemma: one loop iteration yields when the next batch
index `b` is still below the node count. -/
theorem yieldCountLoop_cons (b : Nat) (x : α) (xs : List α) :
    yieldCountLoop b (x :: xs) =
      (if b < xs.length + 1 then 1 else 0) + yieldCountLoop b (xs.drop (b - 1)) := by
  simp [yieldCountLoop]

/-- The batches are consecutive: concatenating them restores the node
list. -/
theorem batchSplit_flatten (b : Nat) (l : List α) :
    (batchSplit b l).flatten = l := by
  induction l using batchSplit.induct b with
  | case1 => simp [batchSplit_nil]
  | case2 x xs ih =>
    rw [batchSplit_cons, List.flatten_cons, ih]
    simp [List.take_append_drop]

/-- Every batch is nonempty and no longer than the batch size (for the
configured sizes, which are at least 1). -/
theorem batchSplit_sizes (b : Nat) (hb : 1 ≤ b) (l : List α) :
    ∀ c ∈ batchSplit b l, c ≠ [] ∧ c.length ≤ b := by
  induction l using batchSplit.induct b with
  | case1 => simp [batchSplit_nil]
  | case2 x xs ih =>
    intro c hc
    rw [batchSplit_cons] at hc
    rcases List.mem_cons.mp hc with hc | hc
    · subst hc
      refine ⟨by simp, ?_⟩
      simp only [List.length_cons]
      have := List.length_take_le (b - 1) xs
      omega
    · exact ih c hc

/-- The number of batches is the ceiling of the node count divided by
the batch size. -/
theorem batchSplit_length (b : Nat) (hb : 1 ≤ b) (l : List α) :
    (batchSplit b l).length = (l.length + (b - 1)) / b := by
  induction l using batchSplit.induct b with
  | case1 =>
    rw [batchSplit_nil]
    simp only [List.length_nil, Nat.zero_add]
    exact (Nat.div_eq_of_lt (by omega)).symm
  | case2 x xs ih =>
    rw [batchSplit_cons, List.length_cons, List.length_cons, ih, List.length_drop]
    have hb' : xs.length + 1 + (b - 1) = xs.length + b := by omega
    rw [hb', Nat.add_div_right _ (by omega)]
    rcases Nat.lt_or_ge xs.length (b - 1) with hlt | hge
    · rw [Nat.sub_eq_zero_of_le (le_of_lt hlt), Nat.zero_add,
        Nat.div_eq_of_lt (by omega), Nat.div_eq_of_lt (by omega)]
    · rw [Nat.sub_add_cancel hge]

/-- The loop yields exactly once per batch other than the last one. -/
theorem yieldCountLoop_eq (b : Nat) (hb : 1 ≤ b) (l : List α) (hl : l ≠ []) :
    yieldCountLoop b l + 1 = (batchSplit b l).length := by
  induction l using batchSplit.induct b with
  | case1 => exact absurd rfl hl
  | case2 x xs ih =>
    rw [yieldCountLoop_cons, batchSplit_cons, List.length_cons]
    by_cases hrest : xs.drop (b - 1) = []
    · have hlen : xs.length ≤ b - 1 := by
        have h := congrArg List.length hrest
        simp only [List.length_drop, List.length_nil] at h
        omega
      rw [hrest, yieldCountLoop_nil, batchSplit_nil, if_neg (by omega)]
      rfl
    · have hlen : b - 1 < xs.length := by
        by_contra hcon
        push_neg at hcon
        exact hrest (List.drop_eq_nil_of_le hcon)
      rw [if_pos (by omega)]
      have := ih hrest
      omega

/-- Counterexample to C2 as stated: processing 300 text nodes with
batch size 50 yields control exactly 5 times between the 6 groups, not
6 times. -/
theorem yieldCount_300_50_ne_6 :
    yieldCountLoop 50 (List.replicate 300 (0 : Nat)) = 5 ∧
      yieldCountLoop 50 (List.replicate 300 (0 : Nat)) ≠ 6 := by
  have hne : List.replicate 300 (0 : Nat) ≠ [] :=
    List.ne_nil_of_length_pos (by rw [List.length_replicate]; omega)
  have h1 := yieldCountLoop_eq 50 (by omega) (List.replicate 300 (0 : Nat)) hne
  have h2 := batchSplit_length 50 (by omega) (List.replicate 300 (0 : Nat))
  rw [List.length_replicate] at h2
  norm_num at h2
  omega

/-- C2 (amended).  For every node list and every batch size `b ≥ 1`,
the loop partitions the nodes into consecutive groups of at most `b`,
processed in order; a yield occurs after a group exactly when the index
of the next group is still below the node count, i.e. after every group
except the last — `(n + b - 1) / b - 1` yields in total, which for 300
nodes and `b = 50` is 5, not 6. -/
theorem batch_loop_spec (b : Nat) (hb : 1 ≤ b) (l : List α) :
    (batchSplit b l).flatten = l ∧
      (∀ c ∈ batchSplit b l, c ≠ [] ∧ c.length ≤ b) ∧
      (l ≠ [] → yieldCountLoop b l + 1 = (batchSplit b l).length) ∧
      (batchSplit b l).length = (l.length + (b - 1)) / b :=
  ⟨batchSplit_flatten b l, batchSplit_sizes b hb l,
   fun hl => yieldCountLoop_eq b hb l hl, batchSplit_length b hb l⟩

/-- Witness for C2 (amended), at 300 nodes and batch size 50: six
batches, five yields. -/
theorem batch_loop_spec_witness :
    (1 ≤ 50 ∧ List.replicate 300 (0 : Nat) ≠ []) ∧
      (yieldCountLoop 50 (List.replicate 300 (0 : Nat)) + 1 =
        (batchSplit 50 (List.replicate 300 (0 : Nat))).length ∧
       (batchSplit 50 (List.replicate 300 (0 : Nat))).length = (300 + 49) / 50) := by
  have hne : List.replicate 300 (0 : Nat) ≠ [] :=
    List.ne_nil_of_length_pos (by rw [List.length_replicate]; omega)
  have h := batch_loop_spec 50 (by omega) (List.replicate 300 (0 : Nat))
  refine ⟨⟨by omega, hne⟩, h.2.2.1 hne, ?_⟩
  have hlen := h.2.2.2
  rwa [List.length_replicate] at hlen

/- ### C8: behaviour of the generated pattern `\b<P>-\d+\b` -/

/-- Reading `isWordAt` at a position whose character is known. -/
theorem isWordAt_of_getElem? {s : JSString} {i : Nat} {c : Char} (h : s[i]? = some c) :
    isWordAt s i = isWordChar c := by
  unfold isWordAt
  rw [h]

/-- Reading `isWordAt` past the end of the string. -/
theorem isWordAt_of_none {s : JSString} {i : Nat} (h : s[i]? = none) :
    isWordAt s i = false := by
  unfold isWordAt
  rw [h]

/-- A matched occurrence starts with the prefix's first character. -/
theorem match_head_getElem? {s : JSString} {p0 : Char} {Q t : JSString} {i : Nat}
    (h : s.drop i = ((p0 :: Q) ++ ['-']) ++ t) : s[i]? = some p0 := by
  have h0 : (s.drop i)[0]? = some p0 := by rw [h]; simp
  rw [List.getElem?_drop, Nat.add_zero] at h0
  exact h0

/-- A matched occurrence has the literal `-` right after the prefix. -/
theorem match_dash_getElem? {s : JSString} {P t : JSString} {i : Nat}
    (h : s.drop i = (P ++ ['-']) ++ t) : s[i + P.length]? = some '-' := by
  have h0 : (s.drop i)[P.length]? = some '-' := by
    rw [h, List.getElem?_append_left (by simp),
      List.getElem?_append_right (le_refl _)]
    simp
  rw [List.getElem?_drop] at h0
  exact h0

/-- A matched occurrence fits inside the string. -/
theorem match_len_le {s : JSString} {P t : JSString} {i : Nat}
    (h : s.drop i = (P ++ ['-']) ++ t) : i + P.length + 1 ≤ s.length := by
  have hlen := congrArg List.length h
  simp only [List.length_drop, List.length_append, List.length_cons,
    List.length_nil] at hlen
  omega

/-- The generated pattern matches `P-123` appended to the prefix
itself. -/
theorem regexTest_P_dash_123 (p0 : Char) (Q : JSString) (hp0 : p0.isAlpha = true) :
    regexTest (p0 :: Q) ((p0 :: Q) ++ ['-', '1', '2', '3']) = true := by
  set P : JSString := p0 :: Q with hP
  set s : JSString := P ++ ['-', '1', '2', '3'] with hs
  have hslen : s.length = P.length + 4 := by simp [hs]
  have hdrop : s.drop (0 + P.length + 1) = ['1', '2', '3'] := by
    rw [Nat.zero_add, hs, show P ++ ['-', '1', '2', '3'] = (P ++ ['-']) ++ ['1', '2', '3'] by
      simp, show P.length + 1 = (P ++ ['-']).length by simp, List.drop_left]
  have hmatch : regexMatchAt P s 0 = true := by
    unfold regexMatchAt
    rw [hdrop]
    rw [show digitRun ['1', '2', '3'] = 3 from by decide]
    have hs0 : s[0]? = some p0 := by rw [hs, hP]; simp
    rw [show wordBoundary s 0 = isWordAt s 0 from rfl]
    rw [isWordAt_of_getElem? hs0]
    have hpre : (P ++ ['-']).isPrefixOf (s.drop 0) = true := by
      rw [List.drop_zero, List.isPrefixOf_iff_prefix]
      exact ⟨['1', '2', '3'], by simp [hs]⟩
    rw [hpre]
    have hb2 : wordBoundary s (0 + P.length + 1 + 3) = true := by
      rw [show 0 + P.length + 1 + 3 = (P.length + 3) + 1 by omega,
        show wordBoundary s ((P.length + 3) + 1) =
          (isWordAt s (P.length + 3) != isWordAt s (P.length + 3 + 1)) from rfl]
      have h3 : s[P.length + 3]? = some '3' := by
        rw [hs, List.getElem?_append_right (by omega)]
        simp
      have h4 : s[P.length + 3 + 1]? = none := by
        rw [List.getElem?_eq_none]
        omega
      rw [isWordAt_of_getElem? h3, isWordAt_of_none h4]
      decide
    rw [hb2]
    simp [isWordChar, hp0]
  rw [regexTest, List.any_eq_true]
  exact ⟨0, List.mem_range.mpr (by omega), hmatch⟩

/-- The generated pattern does not match `Px-123` appended to the
prefix: the only `-`-before-digits position forces the match to start
at index 1, where the word boundary fails. -/
theorem regexTest_Px_dash_123 (p0 : Char) (Q : JSString) (hp0 : p0.isAlpha = true) :
    regexTest (p0 :: Q) ((p0 :: Q) ++ ['x', '-', '1', '2', '3']) = false := by
  set P : JSString := p0 :: Q with hP
  set s : JSString := P ++ ['x', '-', '1', '2', '3'] with hs
  rw [regexTest, List.any_eq_false]
  intro i _
  intro hmatch
  unfold regexMatchAt at hmatch
  rw [Bool.and_eq_true, Bool.and_eq_true, Bool.and_eq_true] at hmatch
  obtain ⟨⟨⟨hbound, hpre⟩, hdig⟩, hbound2⟩ := hmatch
  rw [List.isPrefixOf_iff_prefix] at hpre
  obtain ⟨t, ht⟩ := hpre
  replace ht : s.drop i = (P ++ ['-']) ++ t := ht.symm
  have hdash := match_dash_getElem? ht
  have hdash' : (['x', '-', '1', '2', '3'] : JSString)[i]? = some '-' := by
    have h2 := hdash
    rw [hs, Nat.add_comm i P.length,
      List.getElem?_append_right (Nat.le_add_right _ _)] at h2
    simpa using h2
  have hi5 : i < 5 := by
    by_contra hcon
    push_neg at hcon
    rw [List.getElem?_eq_none
      (by simp only [List.length_cons, List.length_nil]; omega)] at hdash'
    cases hdash'
  interval_cases i
  · exact absurd hdash' (by decide)
  · -- with a match at index 1, both sides of the boundary hold `p0`
    have hs0 : s[0]? = some p0 := by rw [hs, hP]; simp
    have hs1 : s[1]? = some p0 := match_head_getElem? ht
    rw [show wordBoundary s 1 = (isWordAt s 0 != isWordAt s 1) from rfl,
      isWordAt_of_getElem? hs0, isWordAt_of_getElem? hs1] at hbound
    simp [isWordChar, hp0] at hbound
  · exact absurd hdash' (by decide)
  · exact absurd hdash' (by decide)
  · exact absurd hdash' (by decide)

/-- The generated pattern does not match the prefix preceded by
`123-`: every candidate start position holds a digit or `-`, never the
prefix's leading letter. -/
theorem regexTest_123_dash_P (p0 : Char) (Q : JSString) (hp0 : p0.isAlpha = true) :
    regexTest (p0 :: Q) (['1', '2', '3', '-'] ++ (p0 :: Q)) = false := by
  set P : JSString := p0 :: Q with hP
  set s : JSString := ['1', '2', '3', '-'] ++ P with hs
  rw [regexTest, List.any_eq_false]
  intro i _
  intro hmatch
  unfold regexMatchAt at hmatch
  rw [Bool.and_eq_true, Bool.and_eq_true, Bool.and_eq_true] at hmatch
  obtain ⟨⟨⟨hbound, hpre⟩, hdig⟩, hbound2⟩ := hmatch
  rw [List.isPrefixOf_iff_prefix] at hpre
  obtain ⟨t, ht⟩ := hpre
  replace ht : s.drop i = (P ++ ['-']) ++ t := ht.symm
  have hhead := match_head_getElem? ht
  have hle := match_len_le ht
  have hslen : s.length = P.length + 4 := by simp [hs, hP]
  have hi : i < 4 := by
    rw [hslen] at hle
    simp only [hP, List.length_cons] at hle ⊢
    omega
  have halpha : ∀ c, s[i]? = some c → c.isAlpha = true := by
    intro c hc
    rw [hhead] at hc
    cases hc
    exact hp0
  interval_cases i
  · exact absurd (halpha '1' (by rw [hs]; simp)) (by decide)
  · exact absurd (halpha '2' (by rw [hs]; simp)) (by decide)
  · exact absurd (halpha '3' (by rw [hs]; simp)) (by decide)
  · exact absurd (halpha '-' (by rw [hs]; simp)) (by decide)

/-- The generated pattern does not match the prefix followed by a bare
`-`: there is no digit after the dash. -/
theorem regexTest_P_dash (p0 : Char) (Q : JSString) :
    regexTest (p0 :: Q) ((p0 :: Q) ++ ['-']) = false := by
  set P : JSString := p0 :: Q with hP
  set s : JSString := P ++ ['-'] with hs
  rw [regexTest, List.any_eq_false]
  intro i _
  intro hmatch
  unfold regexMatchAt at hmatch
  rw [Bool.and_eq_true, Bool.and_eq_true, Bool.and_eq_true] at hmatch
  obtain ⟨⟨⟨hbound, hpre⟩, hdig⟩, hbound2⟩ := hmatch
  have hdrop : s.drop (i + P.length + 1) = [] := by
    apply List.drop_eq_nil_of_le
    simp only [hs, List.length_append, List.length_cons, List.length_nil]
    omega
  rw [hdrop] at hdig
  exact absurd hdig (by decide)

/-- C8.  For every prefix `P` satisfying the key-prefix invariant,
`generatePattern(P)` is a global pattern whose semantics is
`\b<P>-\d+\b` with `P` inserted literally: it matches `P` followed by
`-123`, and matches neither `Px-123`, nor `123-P`, nor a bare `P-`. -/
theorem generatePattern_spec (P : JSString) (hP : isValidKeyPrefix P = true) :
    (GenericTracker.generatePattern P).global = true ∧
      regexTest P (P ++ "-123".data) = true ∧
      regexTest P (P ++ "x-123".data) = false ∧
      regexTest P ("123-".data ++ P) = false ∧
      regexTest P (P ++ "-".data) = false := by
  cases P with
  | nil => exact absurd hP (by decide)
  | cons p0 Q =>
    unfold isValidKeyPrefix at hP
    rw [Bool.and_eq_true] at hP
    exact ⟨rfl, regexTest_P_dash_123 p0 Q hP.1, regexTest_Px_dash_123 p0 Q hP.1,
      regexTest_123_dash_P p0 Q hP.1, regexTest_P_dash p0 Q⟩

/-- Witness for C8 at the prefix `WMS`. -/
theorem generatePattern_spec_witness :
    isValidKeyPrefix "WMS".data = true ∧
      regexTest "WMS".data ("WMS".data ++ "-123".data) = true ∧
      regexTest "WMS".data ("WMS".data ++ "x-123".data) = false := by
  refine ⟨by decide, ?_, ?_⟩
  · exact (generatePattern_spec "WMS".data (by decide)).2.1
  · exact (generatePattern_spec "WMS".data (by decide)).2.2.1

/- ### C3 and C10: URL generation and validation -/

/-- `url.protocol` is `https:` exactly when the parsed scheme is
`https`. -/
theorem protocol_https_iff (u : URLRec) :
    u.protocol = "https:".data ↔ u.scheme = "https".data := by
  constructor
  · intro h
    rw [URLRec.protocol] at h
    exact List.append_cancel_right
      (h.trans (show ("https:".data : JSString) = "https".data ++ [':'] from rfl))
  · intro h
    rw [URLRec.protocol, h]
    rfl

/-- Unfolding lemma: `sanitizeUrl` on an unparsable URL. -/
theorem sanitizeUrl_of_none {url : JSString} (h : parseURL url = none) :
    sanitizeUrl url = Except.error "Invalid URL format".data := by
  unfold sanitizeUrl
  rw [h]

/-- Unfolding lemma: `sanitizeUrl` on a parsed URL. -/
theorem sanitizeUrl_of_some {url : JSString} {u : URLRec} (h : parseURL url = some u) :
    sanitizeUrl url =
      if u.protocol ≠ "https:".data then Except.error "Invalid URL format".data
      else Except.ok u.serialize := by
  unfold sanitizeUrl
  rw [h]

/-- Unfolding lemma: `generateUrl` appends to a sanitized base. -/
theorem generateUrl_of_ok {k url s : JSString} (h : sanitizeUrl url = Except.ok s) :
    GenericTracker.generateUrl k url = Except.ok (s ++ ['/'] ++ encodeURIComponent k) := by
  unfold GenericTracker.generateUrl
  rw [h]

/-- Unfolding lemma: `generateUrl` propagates the sanitizer's
exception. -/
theorem generateUrl_of_error {k url e : JSString} (h : sanitizeUrl url = Except.error e) :
    GenericTracker.generateUrl k url = Except.error e := by
  unfold GenericTracker.generateUrl
  rw [h]

/-- Unfolding lemma: `validateUrl` on an unparsable URL. -/
theorem validateUrl_of_none {url : JSString} (h : parseURL url = none) :
    GenericTracker.validateUrl url = false := by
  unfold GenericTracker.validateUrl
  rw [h]

/-- Unfolding lemma: `validateUrl` on a parsed URL. -/
theorem validateUrl_of_some {url : JSString} {u : URLRec} (h : parseURL url = some u) :
    GenericTracker.validateUrl url =
      (u.protocol == "https:".data && decide (u.host.length > 0)) := by
  unfold GenericTracker.validateUrl
  rw [h]

/-- Counterexample to C3 as stated: the host URL class appends a
trailing slash when it serialises an origin-only URL, so the generated
link for `WMS-42` against `https://issues.acme.com` contains a double
slash instead of the claimed flat join. -/
theorem generateUrl_acme_counterexample :
    GenericTracker.generateUrl "WMS-42".data "https://issues.acme.com".data =
      Except.ok "https://issues.acme.com//WMS-42".data ∧
    GenericTracker.generateUrl "WMS-42".data "https://issues.acme.com".data ≠
      Except.ok "https://issues.acme.com/WMS-42".data := by
  constructor
  · rfl
  · intro h
    rw [show GenericTracker.generateUrl "WMS-42".data "https://issues.acme.com".data =
        Except.ok "https://issues.acme.com//WMS-42".data from rfl] at h
    injection h with h'
    exact absurd h' (by decide)

/-- C3 (amended).  For every base URL that parses with scheme `https`,
`generateUrl(k, U)` succeeds and returns the normalised serialisation
of `U` (which appends a trailing slash when `U` has an empty path),
followed by `/` and the percent-encoding of `k`; the result starts
with that serialisation and ends with the percent-encoded key.  And
`validateUrl` returns false for every URL whose scheme is not
`https`. -/
theorem generateUrl_https_spec :
    (∀ (u : URLRec) (url k : JSString), parseURL url = some u →
        u.scheme = "https".data →
        GenericTracker.generateUrl k url =
          Except.ok (u.serialize ++ ['/'] ++ encodeURIComponent k) ∧
        u.serialize <+: (u.serialize ++ ['/'] ++ encodeURIComponent k) ∧
        encodeURIComponent k <:+ (u.serialize ++ ['/'] ++ encodeURIComponent k)) ∧
    (∀ (url : JSString) (u : URLRec), parseURL url = some u →
        u.scheme ≠ "https".data → GenericTracker.validateUrl url = false) := by
  constructor
  · intro u url k hparse hscheme
    have hproto : u.protocol = "https:".data := (protocol_https_iff u).mpr hscheme
    have hsan : sanitizeUrl url = Except.ok u.serialize := by
      rw [sanitizeUrl_of_some hparse, if_neg (fun h => h hproto)]
    refine ⟨generateUrl_of_ok hsan, ?_, ?_⟩
    · rw [List.append_assoc]
      exact List.prefix_append _ _
    · exact List.suffix_append _ _
  · intro url u hparse hscheme
    rw [validateUrl_of_some hparse]
    have hproto : (u.protocol == "https:".data) = false :=
      beq_eq_false_iff_ne.mpr (fun h => hscheme ((protocol_https_iff u).mp h))
    rw [hproto]
    rfl

/-- Witness for C3 (amended): the `acme` tracker URL generates the
serialised base (with its trailing slash) followed by `/WMS-42`, and a
plain-http URL fails validation. -/
theorem generateUrl_https_spec_witness :
    GenericTracker.generateUrl "WMS-42".data "https://issues.acme.com".data =
      Except.ok ((URLRec.mk "https".data "issues.acme.com".data none [] []).serialize ++
        ['/'] ++ encodeURIComponent "WMS-42".data) ∧
    GenericTracker.validateUrl "http://insecure.example".data = false :=
  ⟨(generateUrl_https_spec.1 (URLRec.mk "https".data "issues.acme.com".data none [] [])
      "https://issues.acme.com".data "WMS-42".data (by decide) rfl).1,
   generateUrl_https_spec.2 "http://insecure.example".data
      (URLRec.mk "http".data "insecure.example".data none [] [])
      (by decide) (by decide)⟩

/-- C10.  URL generation is total only under the precondition that the
base URL is a valid https URL: `generateUrl` succeeds exactly when the
base parses with scheme `https`, and otherwise propagates the
sanitizer's `Invalid URL format` error; `validateUrl` never throws —
on an unparsable URL or a non-https scheme it returns `false`. -/
theorem generateUrl_error_handling (k url : JSString) :
    ((∃ s, GenericTracker.generateUrl k url = Except.ok s) ↔
      (∃ u, parseURL url = some u ∧ u.scheme = "https".data)) ∧
    (parseURL url = none →
      GenericTracker.generateUrl k url = Except.error "Invalid URL format".data ∧
      GenericTracker.validateUrl url = false) ∧
    (∀ u, parseURL url = some u → u.scheme ≠ "https".data →
      GenericTracker.generateUrl k url = Except.error "Invalid URL format".data ∧
      GenericTracker.validateUrl url = false) := by
  refine ⟨?_, ?_, ?_⟩
  · constructor
    · rintro ⟨s, hs⟩
      cases hparse : parseURL url with
      | none =>
        rw [generateUrl_of_error (sanitizeUrl_of_none hparse)] at hs
        cases hs
      | some u =>
        by_cases hproto : u.protocol = "https:".data
        · exact ⟨u, rfl, (protocol_https_iff u).mp hproto⟩
        · rw [generateUrl_of_error
            (by rw [sanitizeUrl_of_some hparse, if_pos hproto])] at hs
          cases hs
    · rintro ⟨u, hparse, hscheme⟩
      exact ⟨u.serialize ++ ['/'] ++ encodeURIComponent k,
        (generateUrl_https_spec.1 u url k hparse hscheme).1⟩
  · intro hparse
    exact ⟨generateUrl_of_error (sanitizeUrl_of_none hparse), validateUrl_of_none hparse⟩
  · intro u hparse hscheme
    refine ⟨?_, generateUrl_https_spec.2 url u hparse hscheme⟩
    apply generateUrl_of_error
    rw [sanitizeUrl_of_some hparse,
      if_pos (fun h => hscheme ((protocol_https_iff u).mp h))]

/-- Witness for C10: an unparsable base URL and an http base URL both
make `generateUrl` return the `Invalid URL format` error and
`validateUrl` return false. -/
theorem generateUrl_error_handling_witness :
    (GenericTracker.generateUrl "WMS-42".data "notaurl".data =
        Except.error "Invalid URL format".data ∧
      GenericTracker.validateUrl "notaurl".data = false) ∧
    (GenericTracker.generateUrl "WMS-42".data "http://x.example".data =
        Except.error "Invalid URL format".data ∧
      GenericTracker.validateUrl "http://x.example".data = false) :=
  ⟨(generateUrl_error_handling "WMS-42".data "notaurl".data).2.1 (by decide),
   (generateUrl_error_handling "WMS-42".data "http://x.example".data).2.2
      (URLRec.mk "http".data "x.example".data none [] []) (by decide) (by decide)⟩

/- ### C7: idempotence of the detection pass -/

/-- `firstMatchFrom` yields a matching position at or after the search
start. -/
theorem firstMatchFrom_spec {P s : JSString} {start i : Nat}
    (h : firstMatchFrom P s start = some i) :
    start ≤ i ∧ regexMatchAt P s i = true := by
  unfold firstMatchFrom at h
  have hmem := List.mem_of_mem_head? (Option.mem_def.mpr h)
  have hpred := (List.mem_filter.mp hmem).2
  rw [Bool.and_eq_true] at hpred
  exact ⟨of_decide_eq_true hpred.1, hpred.2⟩

/-- The substring captured by a match is the literal prefix, a dash and
a nonempty run of digits. -/
theorem match_take_shape {P s : JSString} {i : Nat} (h : regexMatchAt P s i = true) :
    ∃ ds : JSString, (s.drop i).take (matchLength P s i) = (P ++ ['-']) ++ ds ∧
      ds ≠ [] ∧ ∀ c ∈ ds, c.isDigit = true := by
  unfold regexMatchAt at h
  rw [Bool.and_eq_true, Bool.and_eq_true, Bool.and_eq_true] at h
  obtain ⟨⟨⟨_, hpre⟩, hdig⟩, _⟩ := h
  rw [List.isPrefixOf_iff_prefix] at hpre
  obtain ⟨t, ht⟩ := hpre
  replace ht : s.drop i = (P ++ ['-']) ++ t := ht.symm
  have hdrop : s.drop (i + P.length + 1) = t := by
    rw [show i + P.length + 1 = i + (P.length + 1) from by omega, ← List.drop_drop, ht,
      show P.length + 1 = (P ++ ['-']).length from by simp, List.drop_left]
  refine ⟨t.takeWhile Char.isDigit, ?_, ?_, ?_⟩
  · unfold matchLength digitRun
    rw [hdrop, ht,
      show P.length + 1 + (t.takeWhile Char.isDigit).length =
        (P ++ ['-']).length + (t.takeWhile Char.isDigit).length from by simp,
      List.take_append]
    congr 1
    exact (List.prefix_iff_eq_take.mp (List.takeWhile_prefix _)).symm
  · intro hnil
    unfold digitRun at hdig
    rw [hdrop, hnil] at hdig
    exact absurd hdig (by decide)
  · intro c hc
    exact List.mem_takeWhile_imp hc

/-- Every string the exec loop returns is the literal prefix, a dash
and a nonempty digit run. -/
theorem execAllAux_shape (P s : JSString) :
    ∀ (fuel start : Nat) (key : JSString), key ∈ execAllAux P s fuel start →
      ∃ ds : JSString, key = (P ++ ['-']) ++ ds ∧ ds ≠ [] ∧
        ∀ c ∈ ds, c.isDigit = true := by
  intro fuel
  induction fuel with
  | zero =>
    intro start key h
    cases h
  | succ fuel ih =>
    intro start key h
    unfold execAllAux at h
    cases hfm : firstMatchFrom P s start with
    | none =>
      rw [hfm] at h
      cases h
    | some i =>
      rw [hfm] at h
      rcases List.mem_cons.mp h with hk | hk
      · obtain ⟨ds, hds, hne, hdig⟩ := match_take_shape (firstMatchFrom_spec hfm).2
        exact ⟨ds, hk.trans hds, hne, hdig⟩
      · exact ih _ key hk

/-- Shape of every matched key text `execAll` produces. -/
theorem execAll_shape {P s key : JSString} (h : key ∈ execAll P s) :
    ∃ ds : JSString, key = (P ++ ['-']) ++ ds ∧ ds ≠ [] ∧
      ∀ c ∈ ds, c.isDigit = true :=
  execAllAux_shape P s _ _ key h

/-- Auxiliary impossibility: a longer prefix would have to place its
dash inside the shorter decomposition's digit run. -/
theorem keyShape_longer_impossible {P1 P2 D1 D2 : JSString}
    (h : (P1 ++ ['-']) ++ D1 = (P2 ++ ['-']) ++ D2)
    (hD1 : ∀ c ∈ D1, c.isDigit = true)
    (hlt : P1.length < P2.length) : False := by
  have hR : ((P2 ++ ['-']) ++ D2)[P2.length]? = some '-' := by
    rw [List.getElem?_append_left (by simp),
      List.getElem?_append_right (le_refl _)]
    simp
  have hL : ((P1 ++ ['-']) ++ D1)[P2.length]? =
      D1[P2.length - (P1 ++ ['-']).length]? := by
    rw [List.getElem?_append_right (by simp; omega)]
  have hEq := congrArg (fun l => l[P2.length]?) h
  simp only [] at hEq
  rw [hL, hR] at hEq
  have hd : ('-' : Char) ∈ D1 := by
    rcases hdl : D1[P2.length - (P1 ++ ['-']).length]? with _ | c
    · rw [hdl] at hEq
      cases hEq
    · rw [hdl] at hEq
      injection hEq with hc
      rcases List.getElem?_eq_some.mp hdl with ⟨hlt', he⟩
      rw [← hc]
      exact he ▸ List.getElem_mem hlt'
  exact absurd (hD1 '-' hd) (by decide)

/-- The `<prefix>-<digits>` decomposition of a matched key text is
unique: two decompositions of the same text agree on the prefix. -/
theorem keyShape_prefix_eq {P1 P2 D1 D2 : JSString}
    (h : (P1 ++ ['-']) ++ D1 = (P2 ++ ['-']) ++ D2)
    (hD1 : ∀ c ∈ D1, c.isDigit = true)
    (hD2 : ∀ c ∈ D2, c.isDigit = true) : P1 = P2 := by
  rcases Nat.lt_trichotomy P1.length P2.length with hlt | heq | hgt
  · exact (keyShape_longer_impossible h hD1 hlt).elim
  · have h1 := (List.append_inj h (by simp [heq])).1
    exact List.append_cancel_right h1
  · exact (keyShape_longer_impossible h.symm hD2 hgt).elim

/-- Two detections differing in key text or in mapping key prefix —
the negation of the `alreadyDetected` guard. -/
def distinctKeyPair (a b : DetectedKey) : Prop :=
  ¬(a.key = b.key ∧ a.mapping.keyPrefix = b.mapping.keyPrefix)

/-- One push step only extends the detection list. -/
theorem detectKeyStep_extends (m : RepositoryMapping) (acc : List DetectedKey)
    (key : JSString) : acc <+: detectKeyStep m acc key := by
  unfold detectKeyStep
  split
  · exact List.prefix_refl acc
  · exact List.prefix_append acc _

/-- One push step is the identity when an equivalent entry is already
present. -/
theorem detectKeyStep_of_present (m : RepositoryMapping) (acc : List DetectedKey)
    (key : JSString)
    (h : ∃ e ∈ acc, e.key = key ∧ e.mapping.keyPrefix = m.keyPrefix) :
    detectKeyStep m acc key = acc := by
  unfold detectKeyStep
  rw [if_pos]
  obtain ⟨e, he, h1, h2⟩ := h
  exact List.any_eq_true.mpr ⟨e, he, by simp [h1, h2]⟩

/-- After one push step an entry for the key and prefix is present. -/
theorem detectKeyStep_mem (m : RepositoryMapping) (acc : List DetectedKey)
    (key : JSString) :
    ∃ e ∈ detectKeyStep m acc key, e.key = key ∧ e.mapping.keyPrefix = m.keyPrefix := by
  unfold detectKeyStep
  split
  · next hany =>
    rcases List.any_eq_true.mp hany with ⟨e, he, hpe⟩
    rw [Bool.and_eq_true, beq_iff_eq, beq_iff_eq] at hpe
    exact ⟨e, he, hpe⟩
  · exact ⟨{ key := key, mapping := m }, by simp, rfl, rfl⟩

/-- Everything a push step holds was already present or is the pushed
entry. -/
theorem detectKeyStep_sub (m : RepositoryMapping) (acc : List DetectedKey)
    (key : JSString) :
    ∀ e ∈ detectKeyStep m acc key, e ∈ acc ∨ e = { key := key, mapping := m } := by
  unfold detectKeyStep
  split
  · intro e he
    exact Or.inl he
  · intro e he
    rcases List.mem_append.mp he with h | h
    · exact Or.inl h
    · simp only [List.mem_singleton] at h
      exact Or.inr h

/-- A push step preserves pairwise distinctness of `(key, keyPrefix)`
pairs: the guard refuses exactly the duplicates. -/
theorem detectKeyStep_pairwise (m : RepositoryMapping) (acc : List DetectedKey)
    (key : JSString) (h : acc.Pairwise distinctKeyPair) :
    (detectKeyStep m acc key).Pairwise distinctKeyPair := by
  unfold detectKeyStep
  split
  · exact h
  · next hany =>
    rw [List.pairwise_append]
    refine ⟨h, List.pairwise_singleton _ _, ?_⟩
    intro a ha b hb
    simp only [List.mem_singleton] at hb
    subst hb
    intro ⟨h1, h2⟩
    rw [Bool.not_eq_true, List.any_eq_false] at hany
    exact hany a ha (by simp [h1, h2])

/-- The per-mapping exec loop only extends the detection list. -/
theorem foldKeys_extends (m : RepositoryMapping) (keys : List JSString)
    (acc : List DetectedKey) : acc <+: keys.foldl (detectKeyStep m) acc := by
  induction keys generalizing acc with
  | nil => exact List.prefix_refl acc
  | cons x xs ih =>
    exact (detectKeyStep_extends m acc x).trans (ih (detectKeyStep m acc x))

/-- After the per-mapping exec loop, every key it saw is represented. -/
theorem foldKeys_mem (m : RepositoryMapping) (keys : List JSString)
    (acc : List DetectedKey) (key : JSString) (h : key ∈ keys) :
    ∃ e ∈ keys.foldl (detectKeyStep m) acc,
      e.key = key ∧ e.mapping.keyPrefix = m.keyPrefix := by
  induction keys generalizing acc with
  | nil => cases h
  | cons x xs ih =>
    rcases List.mem_cons.mp h with hx | hx
    · subst hx
      obtain ⟨e, he, hprops⟩ := detectKeyStep_mem m acc key
      exact ⟨e, (foldKeys_extends m xs _).subset he, hprops⟩
    · exact ih _ hx

/-- The per-mapping exec loop is the identity when every key it sees is
already represented. -/
theorem foldKeys_noop (m : RepositoryMapping) (keys : List JSString)
    (acc : List DetectedKey)
    (h : ∀ key ∈ keys, ∃ e ∈ acc, e.key = key ∧ e.mapping.keyPrefix = m.keyPrefix) :
    keys.foldl (detectKeyStep m) acc = acc := by
  induction keys with
  | nil => rfl
  | cons x xs ih =>
    rw [List.foldl_cons, detectKeyStep_of_present m acc x (h x (by simp))]
    exact ih (fun key hk => h key (by simp [hk]))

/-- Everything the per-mapping exec loop holds was already present or
was pushed for one of its keys. -/
theorem foldKeys_sub (m : RepositoryMapping) (keys : List JSString)
    (acc : List DetectedKey) :
    ∀ e ∈ keys.foldl (detectKeyStep m) acc,
      e ∈ acc ∨ ∃ key ∈ keys, e = { key := key, mapping := m } := by
  induction keys generalizing acc with
  | nil =>
    intro e he
    exact Or.inl he
  | cons x xs ih =>
    intro e he
    rcases ih (detectKeyStep m acc x) e he with h | ⟨key, hk, hkey⟩
    · rcases detectKeyStep_sub m acc x e h with h | h
      · exact Or.inl h
      · exact Or.inr ⟨x, by simp, h⟩
    · exact Or.inr ⟨key, by simp [hk], hkey⟩

/-- The per-mapping exec loop preserves pairwise distinctness. -/
theorem foldKeys_pairwise (m : RepositoryMapping) (keys : List JSString)
    (acc : List DetectedKey) (h : acc.Pairwise distinctKeyPair) :
    (keys.foldl (detectKeyStep m) acc).Pairwise distinctKeyPair := by
  induction keys generalizing acc with
  | nil => exact h
  | cons x xs ih => exact ih _ (detectKeyStep_pairwise m acc x h)

/-- One text's detection pass only extends the detection list. -/
theorem detectInText_extends (mappings : List RepositoryMapping)
    (detected : List DetectedKey) (text : JSString) :
    detected <+: detectInText mappings detected text := by
  induction mappings generalizing detected with
  | nil => exact List.prefix_refl detected
  | cons m ms ih =>
    exact (foldKeys_extends m (execAll m.keyPrefix text) detected).trans (ih _)

/-- After one text's detection pass, every match of every configured
mapping is represented. -/
theorem detectInText_mem (mappings : List RepositoryMapping)
    (detected : List DetectedKey) (text : JSString) (m : RepositoryMapping)
    (key : JSString) (hm : m ∈ mappings) (hk : key ∈ execAll m.keyPrefix text) :
    ∃ e ∈ detectInText mappings detected text,
      e.key = key ∧ e.mapping.keyPrefix = m.keyPrefix := by
  induction mappings generalizing detected with
  | nil => cases hm
  | cons m0 ms ih =>
    rcases List.mem_cons.mp hm with hm0 | hm0
    · subst hm0
      obtain ⟨e, he, hprops⟩ := foldKeys_mem m (execAll m.keyPrefix text) detected key hk
      exact ⟨e, (detectInText_extends ms _ text).subset he, hprops⟩
    · exact ih _ hm0

/-- One text's detection pass is the identity when every match of
every configured mapping is already represented. -/
theorem detectInText_noop (mappings : List RepositoryMapping)
    (detected : List DetectedKey) (text : JSString)
    (h : ∀ m ∈ mappings, ∀ key ∈ execAll m.keyPrefix text,
      ∃ e ∈ detected, e.key = key ∧ e.mapping.keyPrefix = m.keyPrefix) :
    detectInText mappings detected text = detected := by
  induction mappings with
  | nil => rfl
  | cons m0 ms ih =>
    show detectInText ms ((execAll m0.keyPrefix text).foldl (detectKeyStep m0) detected)
        text = detected
    rw [foldKeys_noop m0 (execAll m0.keyPrefix text) detected (h m0 (by simp))]
    exact ih (fun m hm key hk => h m (by simp [hm]) key hk)

/-- Everything one text's detection pass holds was already present or
is a pushed match of one of the configured mappings. -/
theorem detectInText_sub (mappings : List RepositoryMapping)
    (detected : List DetectedKey) (text : JSString) :
    ∀ e ∈ detectInText mappings detected text,
      e ∈ detected ∨ ∃ m ∈ mappings, ∃ key ∈ execAll m.keyPrefix text,
        e = { key := key, mapping := m } := by
  induction mappings generalizing detected with
  | nil =>
    intro e he
    exact Or.inl he
  | cons m0 ms ih =>
    intro e he
    rcases ih _ e he with h | ⟨m, hm, key, hk, hkey⟩
    · rcases foldKeys_sub m0 (execAll m0.keyPrefix text) detected e h with h | ⟨key, hk, hkey⟩
      · exact Or.inl h
      · exact Or.inr ⟨m0, by simp, key, hk, hkey⟩
    · exact Or.inr ⟨m, by simp [hm], key, hk, hkey⟩

/-- One text's detection pass preserves pairwise distinctness. -/
theorem detectInText_pairwise (mappings : List RepositoryMapping)
    (detected : List DetectedKey) (text : JSString)
    (h : detected.Pairwise distinctKeyPair) :
    (detectInText mappings detected text).Pairwise distinctKeyPair := by
  induction mappings generalizing detected with
  | nil => exact h
  | cons m0 ms ih =>
    exact ih _ (foldKeys_pairwise m0 (execAll m0.keyPrefix text) detected h)

/-- The whole-subtree pass is the fold of the per-text pass over the
anchor texts followed by the collected text nodes. -/
theorem processTextNodesDetect_eq (mappings : List RepositoryMapping)
    (detected : List DetectedKey) (linkTexts texts : List JSString) :
    processTextNodesDetect mappings detected linkTexts texts =
      (linkTexts ++ texts).foldl (detectInText mappings) detected :=
  (List.foldl_append _ _ _ _).symm

/-- The pass over a list of texts only extends the detection list. -/
theorem foldTexts_extends (mappings : List RepositoryMapping)
    (ts : List JSString) (detected : List DetectedKey) :
    detected <+: ts.foldl (detectInText mappings) detected := by
  induction ts generalizing detected with
  | nil => exact List.prefix_refl detected
  | cons t ts ih => exact (detectInText_extends mappings detected t).trans (ih _)

/-- After the pass over a list of texts, every match of every mapping
in every text is represented. -/
theorem foldTexts_mem (mappings : List RepositoryMapping) (ts : List JSString)
    (detected : List DetectedKey) (t : JSString) (m : RepositoryMapping)
    (key : JSString) (ht : t ∈ ts) (hm : m ∈ mappings)
    (hk : key ∈ execAll m.keyPrefix t) :
    ∃ e ∈ ts.foldl (detectInText mappings) detected,
      e.key = key ∧ e.mapping.keyPrefix = m.keyPrefix := by
  induction ts generalizing detected with
  | nil => cases ht
  | cons t0 ts ih =>
    rcases List.mem_cons.mp ht with ht0 | ht0
    · subst ht0
      obtain ⟨e, he, hprops⟩ := detectInText_mem mappings detected t m key hm hk
      exact ⟨e, (foldTexts_extends mappings ts _).subset he, hprops⟩
    · exact ih _ ht0

/-- The pass over a list of texts is the identity when all of its
matches are already represented. -/
theorem foldTexts_noop (mappings : List RepositoryMapping) (ts : List JSString)
    (detected : List DetectedKey)
    (h : ∀ t ∈ ts, ∀ m ∈ mappings, ∀ key ∈ execAll m.keyPrefix t,
      ∃ e ∈ detected, e.key = key ∧ e.mapping.keyPrefix = m.keyPrefix) :
    ts.foldl (detectInText mappings) detected = detected := by
  induction ts with
  | nil => rfl
  | cons t0 ts ih =>
    rw [List.foldl_cons, detectInText_noop mappings detected t0 (h t0 (by simp))]
    exact ih (fun t ht m hm key hk => h t (by simp [ht]) m hm key hk)

/-- Everything the pass over a list of texts holds was already present
or is a pushed match. -/
theorem foldTexts_sub (mappings : List RepositoryMapping) (ts : List JSString)
    (detected : List DetectedKey) :
    ∀ e ∈ ts.foldl (detectInText mappings) detected,
      e ∈ detected ∨ ∃ t ∈ ts, ∃ m ∈ mappings, ∃ key ∈ execAll m.keyPrefix t,
        e = { key := key, mapping := m } := by
  induction ts generalizing detected with
  | nil =>
    intro e he
    exact Or.inl he
  | cons t0 ts ih =>
    intro e he
    rcases ih _ e he with h | ⟨t, ht, m, hm, key, hk, hkey⟩
    · rcases detectInText_sub mappings detected t0 e h with h | ⟨m, hm, key, hk, hkey⟩
      · exact Or.inl h
      · exact Or.inr ⟨t0, by simp, m, hm, key, hk, hkey⟩
    · exact Or.inr ⟨t, by simp [ht], m, hm, key, hk, hkey⟩

/-- The pass over a list of texts preserves pairwise distinctness. -/
theorem foldTexts_pairwise (mappings : List RepositoryMapping) (ts : List JSString)
    (detected : List DetectedKey) (h : detected.Pairwise distinctKeyPair) :
    (ts.foldl (detectInText mappings) detected).Pairwise distinctKeyPair := by
  induction ts generalizing detected with
  | nil => exact h
  | cons t0 ts ih => exact ih _ (detectInText_pairwise mappings detected t0 h)

/-- C7.  The detection pass is idempotent: over an unchanged subtree
(the same anchor texts and collected text nodes) with an unchanged
mapping set, a second run leaves the detection set identical to the
first run's result; and the detection set built from empty never
contains two entries with the same match text. -/
theorem detection_pass_idempotent (mappings : List RepositoryMapping)
    (linkTexts texts : List JSString) :
    processTextNodesDetect mappings
        (processTextNodesDetect mappings [] linkTexts texts) linkTexts texts =
      processTextNodesDetect mappings [] linkTexts texts ∧
    ((processTextNodesDetect mappings [] linkTexts texts).map
        DetectedKey.key).Nodup := by
  rw [processTextNodesDetect_eq, processTextNodesDetect_eq]
  constructor
  · apply foldTexts_noop
    intro t ht m hm key hk
    exact foldTexts_mem mappings (linkTexts ++ texts) [] t m key ht hm hk
  · have hshape : ∀ e ∈ (linkTexts ++ texts).foldl (detectInText mappings) [],
        ∃ ds : JSString, e.key = (e.mapping.keyPrefix ++ ['-']) ++ ds ∧ ds ≠ [] ∧
          ∀ c ∈ ds, c.isDigit = true := by
      intro e he
      rcases foldTexts_sub mappings (linkTexts ++ texts) [] e he with h | ⟨t, _, m, _, key, hk, hkey⟩
      · cases h
      · obtain ⟨ds, hds, hne, hdig⟩ := execAll_shape hk
        subst hkey
        exact ⟨ds, by simpa using hds, hne, hdig⟩
    have hpair : ((linkTexts ++ texts).foldl (detectInText mappings) []).Pairwise
        distinctKeyPair :=
      foldTexts_pairwise mappings (linkTexts ++ texts) [] List.Pairwise.nil
    rw [List.Nodup, List.pairwise_map]
    apply hpair.imp_of_mem
    intro a b ha hb hab hk
    obtain ⟨dsa, hka, _, hdsa⟩ := hshape a ha
    obtain ⟨dsb, hkb, _, hdsb⟩ := hshape b hb
    apply hab
    refine ⟨hk, ?_⟩
    have heq : (a.mapping.keyPrefix ++ ['-']) ++ dsa =
        (b.mapping.keyPrefix ++ ['-']) ++ dsb := by
      rw [← hka, ← hkb, hk]
    exact keyShape_prefix_eq heq hdsa hdsb

/- ### C9: the text scanner's exclusion policy -/

/-- The spec-side per-element exclusion condition: the element is one
of the excluded tags, is `contenteditable="true"`, or carries one of
the deny-listed code-editor classes. -/
def isExcludedElemData (e : ElemData) : Prop :=
  e.tag ∈ ["input".data, "textarea".data, "select".data, "button".data,
    "a".data, "code".data, "pre".data] ∨
  e.contenteditable = some "true".data ∨
  ∃ c ∈ e.classes, c ∈ ["CodeMirror".data, "ace_editor".data, "monaco-editor".data]

instance (e : ElemData) : Decidable (isExcludedElemData e) := by
  unfold isExcludedElemData
  infer_instance

/-- An element matches one of the deny-list selectors exactly when the
per-element exclusion condition holds. -/
theorem exists_selector_iff (e : ElemData) :
    (∃ sel ∈ excludeSelectors, matchesSelector e sel = true) ↔ isExcludedElemData e := by
  unfold isExcludedElemData
  constructor
  · rintro ⟨sel, hsel, hmatch⟩
    simp only [excludeSelectors, List.mem_cons, List.not_mem_nil, or_false] at hsel
    rcases hsel with h | h | h | h | h | h | h | h | h | h | h <;> subst h <;>
      simp only [matchesSelector, beq_iff_eq, List.contains_iff_exists_mem_beq,
        beq_iff_eq] at hmatch
    · exact Or.inl (by simp [hmatch])
    · exact Or.inl (by simp [hmatch])
    · exact Or.inl (by simp [hmatch])
    · exact Or.inl (by simp [hmatch])
    · exact Or.inl (by simp [hmatch])
    · exact Or.inl (by simp [hmatch])
    · exact Or.inl (by simp [hmatch])
    · exact Or.inr (Or.inl hmatch)
    · rcases hmatch with ⟨c, hc, hceq⟩
      exact Or.inr (Or.inr ⟨c, hc, by simp [hceq.symm]⟩)
    · rcases hmatch with ⟨c, hc, hceq⟩
      exact Or.inr (Or.inr ⟨c, hc, by simp [hceq.symm]⟩)
    · rcases hmatch with ⟨c, hc, hceq⟩
      exact Or.inr (Or.inr ⟨c, hc, by simp [hceq.symm]⟩)
  · rintro (htag | hce | ⟨c, hc, hcls⟩)
    · simp only [List.mem_cons, List.not_mem_nil, or_false] at htag
      rcases htag with h | h | h | h | h | h | h
      · exact ⟨.tagSel "input".data, by simp [excludeSelectors], by
          simp [matchesSelector, h]⟩
      · exact ⟨.tagSel "textarea".data, by simp [excludeSelectors], by
          simp [matchesSelector, h]⟩
      · exact ⟨.tagSel "select".data, by simp [excludeSelectors], by
          simp [matchesSelector, h]⟩
      · exact ⟨.tagSel "button".data, by simp [excludeSelectors], by
          simp [matchesSelector, h]⟩
      · exact ⟨.tagSel "a".data, by simp [excludeSelectors], by
          simp [matchesSelector, h]⟩
      · exact ⟨.tagSel "code".data, by simp [excludeSelectors], by
          simp [matchesSelector, h]⟩
      · exact ⟨.tagSel "pre".data, by simp [excludeSelectors], by
          simp [matchesSelector, h]⟩
    · exact ⟨.contenteditableTrue, by simp [excludeSelectors], by
        simp [matchesSelector, hce]⟩
    · simp only [List.mem_cons, List.not_mem_nil, or_false] at hcls
      rcases hcls with h | h | h
      · refine ⟨.classSel "CodeMirror".data, by simp [excludeSelectors], ?_⟩
        simp only [matchesSelector, List.contains_iff_exists_mem_beq]
        exact ⟨c, hc, by simp [h]⟩
      · refine ⟨.classSel "ace_editor".data, by simp [excludeSelectors], ?_⟩
        simp only [matchesSelector, List.contains_iff_exists_mem_beq]
        exact ⟨c, hc, by simp [h]⟩
      · refine ⟨.classSel "monaco-editor".data, by simp [excludeSelectors], ?_⟩
        simp only [matchesSelector, List.contains_iff_exists_mem_beq]
        exact ⟨c, hc, by simp [h]⟩

/-- `shouldExcludeElement` holds exactly when some element of the
self-and-ancestors chain (the nearest matching one among them, in
particular) satisfies the per-element exclusion condition. -/
theorem shouldExcludeElement_iff (chain : List ElemData) :
    shouldExcludeElement chain = true ↔ ∃ a ∈ chain, isExcludedElemData a := by
  unfold shouldExcludeElement closestMatch
  rw [List.any_eq_true]
  constructor
  · rintro ⟨sel, hsel, hfind⟩
    rcases Option.isSome_iff_exists.mp hfind with ⟨a, ha⟩
    have hmem := List.mem_of_find?_eq_some ha
    have hmatch := List.find?_some ha
    exact ⟨a, hmem, (exists_selector_iff a).mp ⟨sel, hsel, hmatch⟩⟩
  · rintro ⟨a, ha, hexcl⟩
    rcases (exists_selector_iff a).mpr hexcl with ⟨sel, hsel, hmatch⟩
    refine ⟨sel, hsel, ?_⟩
    rw [List.find?_isSome]
    exact ⟨a, ha, hmatch⟩

/-- Unfolding lemma for the walker on an empty child list. -/
theorem getTextNodesAux_nil (chain : List ElemData) :
    getTextNodesAux chain [] = [] := by
  simp [getTextNodesAux]

/-- Unfolding lemma for the walker on a leading text node. -/
theorem getTextNodesAux_text (chain : List ElemData) (s : JSString)
    (rest : List DomNode) :
    getTextNodesAux chain (.text s :: rest) =
      (if !trimmedEmpty s && !shouldExcludeElement chain then [s] else []) ++
        getTextNodesAux chain rest := by
  simp [getTextNodesAux]

/-- Unfolding lemma for the walker on a leading element. -/
theorem getTextNodesAux_elem (chain : List ElemData) (e : ElemData)
    (cs rest : List DomNode) :
    getTextNodesAux chain (.elem e cs :: rest) =
      getTextNodesAux (e :: chain) cs ++ getTextNodesAux chain rest := by
  simp [getTextNodesAux]

/-- Unfolding lemma for the text-node enumeration on an empty list. -/
theorem allTextNodes_nil (chain : List ElemData) : allTextNodes chain [] = [] := by
  simp [allTextNodes]

/-- Unfolding lemma for the text-node enumeration on a leading text
node. -/
theorem allTextNodes_text (chain : List ElemData) (s : JSString) (rest : List DomNode) :
    allTextNodes chain (.text s :: rest) = (chain, s) :: allTextNodes chain rest := by
  simp [allTextNodes]

/-- Unfolding lemma for the text-node enumeration on a leading
element. -/
theorem allTextNodes_elem (chain : List ElemData) (e : ElemData) (cs rest : List DomNode) :
    allTextNodes chain (.elem e cs :: rest) =
      allTextNodes (e :: chain) cs ++ allTextNodes chain rest := by
  simp [allTextNodes]

/-- Unfolding lemmas for `textContentOf`. -/
theorem textContentOf_nil : textContentOf [] = [] := by
  simp [textContentOf]

/-- `textContent` of a leading text node. -/
theorem textContentOf_text (s : JSString) (rest : List DomNode) :
    textContentOf (.text s :: rest) = s ++ textContentOf rest := by
  simp [textContentOf]

/-- `textContent` of a leading element. -/
theorem textContentOf_elem (e : ElemData) (cs rest : List DomNode) :
    textContentOf (.elem e cs :: rest) = textContentOf cs ++ textContentOf rest := by
  simp [textContentOf]

/-- Unfolding lemmas for `anchorTexts`. -/
theorem anchorTexts_nil : anchorTexts [] = [] := by
  simp [anchorTexts]

/-- Anchor texts skip a leading text node. -/
theorem anchorTexts_text (s : JSString) (rest : List DomNode) :
    anchorTexts (.text s :: rest) = anchorTexts rest := by
  simp [anchorTexts]

/-- Anchor texts of a leading element. -/
theorem anchorTexts_elem (e : ElemData) (cs rest : List DomNode) :
    anchorTexts (.elem e cs :: rest) =
      (if e.tag == "a".data then [textContentOf cs] else []) ++ anchorTexts cs ++
        anchorTexts rest := by
  simp [anchorTexts]

/-- The walker's output is exactly the enumeration filtered by the
spec's exclusion policy: a text node is kept unless its trimmed
content is empty or some element of its parent's self-and-ancestors
chain satisfies the exclusion condition. -/
theorem getTextNodesAux_filter (chain : List ElemData) (ns : List DomNode) :
    getTextNodesAux chain ns =
      (allTextNodes chain ns).filterMap (fun p =>
        if trimmedEmpty p.2 = false ∧ ¬ (∃ a ∈ p.1, isExcludedElemData a) then some p.2
        else none) := by
  induction chain, ns using getTextNodesAux.induct with
  | case1 chain => rw [getTextNodesAux_nil, allTextNodes_nil]; rfl
  | case2 chain s rest ih =>
    rw [getTextNodesAux_text, allTextNodes_text, List.filterMap_cons, ih]
    by_cases hcond : trimmedEmpty s = false ∧ ¬ (∃ a ∈ chain, isExcludedElemData a)
    · rw [if_pos hcond]
      rw [show (!trimmedEmpty s && !shouldExcludeElement chain) = true by
        rw [Bool.and_eq_true, Bool.not_eq_true', Bool.not_eq_true']
        refine ⟨hcond.1, ?_⟩
        rw [← Bool.not_eq_true, shouldExcludeElement_iff]
        exact hcond.2]
      rfl
    · rw [if_neg hcond]
      rw [show (!trimmedEmpty s && !shouldExcludeElement chain) = false by
        rw [Bool.and_eq_false_iff]
        rcases Decidable.not_and_iff_or_not.mp hcond with h | h
        · cases htr : trimmedEmpty s with
          | false => exact absurd htr h
          | true => exact Or.inl (by simp [htr])
        · exact Or.inr
            (by simp [(shouldExcludeElement_iff chain).mpr (Decidable.not_not.mp h)])]
      rfl
  | case3 chain e cs rest ih1 ih2 =>
    rw [getTextNodesAux_elem, allTextNodes_elem, List.filterMap_append, ih1, ih2]

/-- Every text node's content is an infix of the `textContent` of the
node list containing it. -/
theorem textNode_infix_textContent (chain : List ElemData) (ns : List DomNode) :
    ∀ p ∈ allTextNodes chain ns, p.2 <:+: textContentOf ns := by
  induction chain, ns using allTextNodes.induct with
  | case1 chain =>
    intro p hp
    rw [allTextNodes_nil] at hp
    cases hp
  | case2 chain s rest ih =>
    intro p hp
    rw [allTextNodes_text] at hp
    rw [textContentOf_text]
    rcases List.mem_cons.mp hp with hp | hp
    · subst hp
      exact (List.prefix_append s (textContentOf rest)).isInfix
    · exact (ih p hp).trans (List.suffix_append s (textContentOf rest)).isInfix
  | case3 chain e cs rest ih1 ih2 =>
    intro p hp
    rw [allTextNodes_elem] at hp
    rw [textContentOf_elem]
    rcases List.mem_append.mp hp with hp | hp
    · exact (ih1 p hp).trans
        (List.prefix_append (textContentOf cs) (textContentOf rest)).isInfix
    · exact (ih2 p hp).trans
        (List.suffix_append (textContentOf cs) (textContentOf rest)).isInfix

/-- Every enumerated text node's chain extends the ambient chain, and
each anchor element on the extension part has its `textContent` —
which contains the node's content — among the subtree's existing-link
texts. -/
theorem allTextNodes_chain_shape (chain : List ElemData) (ns : List DomNode) :
    ∀ p ∈ allTextNodes chain ns,
      ∃ inner, p.1 = inner ++ chain ∧
        ∀ a ∈ inner, a.tag = "a".data → ∃ t ∈ anchorTexts ns, p.2 <:+: t := by
  induction chain, ns using allTextNodes.induct with
  | case1 chain =>
    intro p hp
    rw [allTextNodes_nil] at hp
    cases hp
  | case2 chain s rest ih =>
    intro p hp
    rw [allTextNodes_text] at hp
    rcases List.mem_cons.mp hp with hp | hp
    · subst hp
      exact ⟨[], by simp, by simp⟩
    · obtain ⟨inner, hchain, hanch⟩ := ih p hp
      refine ⟨inner, hchain, ?_⟩
      intro a ha htag
      obtain ⟨t, ht, hinf⟩ := hanch a ha htag
      rw [anchorTexts_text]
      exact ⟨t, ht, hinf⟩
  | case3 chain e cs rest ih1 ih2 =>
    intro p hp
    rw [allTextNodes_elem] at hp
    rcases List.mem_append.mp hp with hp | hp
    · obtain ⟨inner, hchain, hanch⟩ := ih1 p hp
      refine ⟨inner ++ [e], by rw [hchain]; simp, ?_⟩
      intro a ha htag
      rw [anchorTexts_elem]
      rcases List.mem_append.mp ha with ha | ha
      · obtain ⟨t, ht, hinf⟩ := hanch a ha htag
        exact ⟨t, by simp [ht], hinf⟩
      · simp only [List.mem_singleton] at ha
        subst ha
        refine ⟨textContentOf cs, ?_, textNode_infix_textContent (a :: chain) cs p hp⟩
        rw [if_pos (by simp [htag])]
        simp
    · obtain ⟨inner, hchain, hanch⟩ := ih2 p hp
      refine ⟨inner, hchain, ?_⟩
      intro a ha htag
      obtain ⟨t, ht, hinf⟩ := hanch a ha htag
      rw [anchorTexts_elem]
      exact ⟨t, by simp [ht], hinf⟩

/-- C9.  `getTextNodes` over a root element keeps exactly the text
nodes whose trimmed content is nonempty and whose parent's
self-and-ancestors chain contains no excluded element — no input,
textarea, select, button, anchor, code or pre ancestor, no
`contenteditable="true"` ancestor and no deny-listed code-editor
container; `shouldExcludeElement` decides exactly that chain
condition; and a text node under an anchor inside the subtree — never
collected by the primary pass — has its content inside one of the
anchor texts the separate existing-link pass scans. -/
theorem getTextNodes_exclusion (e0 : ElemData) (cs : List DomNode) :
    getTextNodes e0 cs [] =
      (allTextNodes [e0] cs).filterMap (fun p =>
        if trimmedEmpty p.2 = false ∧ ¬ (∃ a ∈ p.1, isExcludedElemData a) then some p.2
        else none) ∧
    (∀ chain : List ElemData,
      shouldExcludeElement chain = true ↔ ∃ a ∈ chain, isExcludedElemData a) ∧
    (∀ p ∈ allTextNodes [e0] cs, ∀ inner, p.1 = inner ++ [e0] →
      ∀ a ∈ inner, a.tag = "a".data → ∃ t ∈ anchorTexts cs, p.2 <:+: t) := by
  refine ⟨getTextNodesAux_filter [e0] cs, shouldExcludeElement_iff, ?_⟩
  intro p hp inner hchain a ha htag
  obtain ⟨inner', hchain', hanch⟩ := allTextNodes_chain_shape [e0] cs p hp
  have hinner : inner = inner' := by
    have h := hchain.symm.trans hchain'
    exact (List.append_inj h (by
      have := congrArg List.length h
      simp only [List.length_append] at this
      omega)).1
  subst hinner
  exact hanch a ha htag

/-- Witness for C9: in a document whose root holds an anchor around
`WMS-9` and a loose text `hello`, the anchored text is surfaced
through the existing-link pass's anchor texts. -/
theorem getTextNodes_exclusion_witness :
    ∃ t ∈ anchorTexts
        [DomNode.elem ⟨"a".data, none, []⟩ [DomNode.text "WMS-9".data],
         DomNode.text "hello".data],
      ("WMS-9".data : JSString) <:+: t := by
  refine (getTextNodes_exclusion ⟨"div".data, none, []⟩
      [DomNode.elem ⟨"a".data, none, []⟩ [DomNode.text "WMS-9".data],
       DomNode.text "hello".data]).2.2
    ([⟨"a".data, none, []⟩, ⟨"div".data, none, []⟩], "WMS-9".data)
    ?_ [⟨"a".data, none, []⟩] rfl ⟨"a".data, none, []⟩ (by simp) rfl
  simp [allTextNodes_elem, allTextNodes_text, allTextNodes_nil]

/- ### C1: the navigation handler -/

/-- C1.  On every detected soft navigation the accumulated detection
state of the link processor is cleared unconditionally — also when the
repository portion of the URL is unchanged; when the repository
portion changed, the processing-cache entry of the old repository is
removed (and its clearing effect emitted), and the new repository's
mappings are fetched and installed before the delayed rescan: the
effect trace ends with the fetch immediately followed by the 500 ms
rescan scheduling. -/
theorem handleNavigation_spec (st : ContentState) (url : JSString) :
    ((handleNavigation st url).1.processor.detectedKeys = [] ∧
      (handleNavigation st url).1.processor.processedCount = 0) ∧
    (extractRepositoryFromUrl url ≠ st.currentRepository →
      (∀ old, st.currentRepository = some old →
        (∀ p ∈ (handleNavigation st url).1.storage.processingCache, p.1 ≠ old) ∧
        NavEffect.clearedCache old ∈ (handleNavigation st url).2) ∧
      (∀ r, extractRepositoryFromUrl url = some r →
        (handleNavigation st url).1.processor.mappings =
          getMappingForRepository st.storage r ∧
        ∃ pre, (handleNavigation st url).2 =
          pre ++ [NavEffect.fetchedMappings r (getMappingForRepository st.storage r),
            NavEffect.scheduledRescan 500])) := by
  rcases hrepo : extractRepositoryFromUrl url with _ | r <;>
    rcases hcur : st.currentRepository with _ | old
  · constructor
    · constructor <;>
        simp [handleNavigation, hrepo, hcur, ProcessorState.step]
    · intro hch
      exact absurd rfl hch
  · constructor
    · constructor <;>
        simp [handleNavigation, hrepo, hcur, ProcessorState.step]
    · intro _
      constructor
      · intro o ho
        injection ho with ho
        subst ho
        constructor
        · intro p hp
          simp [handleNavigation, hrepo, hcur, clearProcessingCache,
            List.mem_filter] at hp
          exact hp.2
        · simp [handleNavigation, hrepo, hcur]
      · intro r hr
        cases hr
  · constructor
    · constructor <;>
        simp [handleNavigation, hrepo, hcur, ProcessorState.step]
    · intro _
      constructor
      · intro o ho
        cases ho
      · intro r' hr'
        have hr'' : r' = r := by
          injection hr'.symm
        subst hr''
        constructor
        · simp [handleNavigation, hrepo, hcur, ProcessorState.step,
            getMappingForRepository]
        · exact ⟨[], by simp [handleNavigation, hrepo, hcur, ProcessorState.step]⟩
  · by_cases hro : r = old
    · constructor
      · constructor <;>
          simp [handleNavigation, hrepo, hcur, hro, ProcessorState.step]
      · intro hch
        exact absurd (by rw [hro]) hch
    · constructor
      · constructor <;>
          simp [handleNavigation, hrepo, hcur, hro, ProcessorState.step]
      · intro _
        constructor
        · intro o ho
          injection ho with ho
          subst ho
          constructor
          · intro p hp
            simp [handleNavigation, hrepo, hcur, hro, clearProcessingCache,
              ProcessorState.step, List.mem_filter] at hp
            exact hp.2
          · simp [handleNavigation, hrepo, hcur, hro]
        · intro r' hr'
          have hr'' : r' = r := by
            injection hr'.symm
          subst hr''
          constructor
          · simp [handleNavigation, hrepo, hcur, hro, ProcessorState.step,
              getMappingForRepository, clearProcessingCache]
          · refine ⟨[NavEffect.clearedCache old], ?_⟩
            simp [handleNavigation, hrepo, hcur, hro, ProcessorState.step,
              getMappingForRepository, clearProcessingCache]

/-- Witness for C1: navigating from repository `a/b` to
`https://github.com/a/c` clears the detection state, clears the cache
entry of `a/b`, and fetches the `a/c` mappings before the scheduled
rescan. -/
theorem handleNavigation_spec_witness :
    ((handleNavigation
        ⟨⟨[⟨"1".data, "a/b".data, "https://b.example".data, "WMS".data, true, [], []⟩,
           ⟨"2".data, "a/c".data, "https://c.example".data, "OTH".data, true, [], []⟩],
          [("a/b".data, "x".data)]⟩,
         some "a/b".data,
         ⟨[⟨"1".data, "a/b".data, "https://b.example".data, "WMS".data, true, [], []⟩],
          3,
          [⟨"WMS-1".data,
            ⟨"1".data, "a/b".data, "https://b.example".data, "WMS".data, true, [], []⟩⟩],
          defaultOptions⟩⟩
        "https://github.com/a/c".data).1.processor.detectedKeys = [] ∧
     (handleNavigation
        ⟨⟨[⟨"1".data, "a/b".data, "https://b.example".data, "WMS".data, true, [], []⟩,
           ⟨"2".data, "a/c".data, "https://c.example".data, "OTH".data, true, [], []⟩],
          [("a/b".data, "x".data)]⟩,
         some "a/b".data,
         ⟨[⟨"1".data, "a/b".data, "https://b.example".data, "WMS".data, true, [], []⟩],
          3,
          [⟨"WMS-1".data,
            ⟨"1".data, "a/b".data, "https://b.example".data, "WMS".data, true, [], []⟩⟩],
          defaultOptions⟩⟩
        "https://github.com/a/c".data).1.processor.processedCount = 0) ∧
    (∀ p ∈ (handleNavigation
        ⟨⟨[⟨"1".data, "a/b".data, "https://b.example".data, "WMS".data, true, [], []⟩,
           ⟨"2".data, "a/c".data, "https://c.example".data, "OTH".data, true, [], []⟩],
          [("a/b".data, "x".data)]⟩,
         some "a/b".data,
         ⟨[⟨"1".data, "a/b".data, "https://b.example".data, "WMS".data, true, [], []⟩],
          3,
          [⟨"WMS-1".data,
            ⟨"1".data, "a/b".data, "https://b.example".data, "WMS".data, true, [], []⟩⟩],
          defaultOptions⟩⟩
        "https://github.com/a/c".data).1.storage.processingCache, p.1 ≠ "a/b".data) ∧
    (∃ pre, (handleNavigation
        ⟨⟨[⟨"1".data, "a/b".data, "https://b.example".data, "WMS".data, true, [], []⟩,
           ⟨"2".data, "a/c".data, "https://c.example".data, "OTH".data, true, [], []⟩],
          [("a/b".data, "x".data)]⟩,
         some "a/b".data,
         ⟨[⟨"1".data, "a/b".data, "https://b.example".data, "WMS".data, true, [], []⟩],
          3,
          [⟨"WMS-1".data,
            ⟨"1".data, "a/b".data, "https://b.example".data, "WMS".data, true, [], []⟩⟩],
          defaultOptions⟩⟩
        "https://github.com/a/c".data).2 =
      pre ++ [NavEffect.fetchedMappings "a/c".data
          (getMappingForRepository
            ⟨[⟨"1".data, "a/b".data, "https://b.example".data, "WMS".data, true, [], []⟩,
              ⟨"2".data, "a/c".data, "https://c.example".data, "OTH".data, true, [], []⟩],
             [("a/b".data, "x".data)]⟩ "a/c".data),
        NavEffect.scheduledRescan 500]) := by
  have h := handleNavigation_spec
    ⟨⟨[⟨"1".data, "a/b".data, "https://b.example".data, "WMS".data, true, [], []⟩,
       ⟨"2".data, "a/c".data, "https://c.example".data, "OTH".data, true, [], []⟩],
      [("a/b".data, "x".data)]⟩,
     some "a/b".data,
     ⟨[⟨"1".data, "a/b".data, "https://b.example".data, "WMS".data, true, [], []⟩],
      3,
      [⟨"WMS-1".data,
        ⟨"1".data, "a/b".data, "https://b.example".data, "WMS".data, true, [], []⟩⟩],
      defaultOptions⟩⟩
    "https://github.com/a/c".data
  have hch := h.2 (by decide)
  exact ⟨⟨h.1.1, h.1.2⟩, (hch.1 "a/b".data rfl).1,
    (hch.2 "a/c".data (by decide)).2⟩
